import Mathlib

/-!
Verification of the reactive-DOM library's specification against a shallow
embedding of its TypeScript sources.

Each section embeds one source module (names follow the source):
 * `Disposable`  — src/lib/lifecycle/disposable.ts
 * `Debounce`    — utils/debounce.ts (createDebouncer)
 * `Stores`      — src/lib/stores/index.ts and utils.ts
 * `Template`    — src/lib/template/tag.ts (tmpl)
 * `Target`      — src/lib/framework/binding/target.ts (updateDomTarget)
 * `Rebind`      — src/lib/framework/binding/rebind.ts (value-update pass)
 * `Diffing`     — dom diffing module (applyOps / diffArray)

JavaScript reference identity is modelled by numeric identifiers: two model
values are equal exactly when the JS values they stand for are `===`.
-/

namespace Disposable

/-- A cleanup callback, as data.  `prim n` is an opaque user/framework callback
identified by `n`; `chain a b` is the closure `() => { a(); b(); }` built by
`disposable` when it extends the shallow chain. -/
inductive CleanupFn where
  | prim (id : Nat)
  | chain (a b : CleanupFn)
deriving DecidableEq, Repr

/-- Running a cleanup yields the sequence of primitive callbacks invoked. -/
def runFn : CleanupFn → List Nat
  | .prim n => [n]
  | .chain a b => runFn a ++ runFn b

/-- Contents of the DISPOSE slot: either a directly attached callback
(`Object.defineProperty(obj, DISPOSE, { value: disposeFn, ... })`) or the
composite closure `() => { obj[ROOT_DISPOSE]!(); obj[SHALLOW_DISPOSE]?.(); }`,
which reads the root/shallow slots at call time. -/
inductive DSlot where
  | direct (f : CleanupFn)
  | composite
deriving DecidableEq, Repr

/-- The three symbol-keyed slots of a (potentially) disposable object.
`dispose = none` models the absence of the DISPOSE key, i.e. `isDisposable`
is false. -/
structure Obj where
  dispose : Option DSlot
  root : Option CleanupFn
  shallow : Option CleanupFn
deriving DecidableEq, Repr

/-- Source `isDisposable`: the object owns the DISPOSE key. -/
def isDisposable (o : Obj) : Bool :=
  o.dispose.isSome

/-- The primitive callbacks executed by invoking `obj[DISPOSE]()` on the
current state.  The composite closure runs `obj[ROOT_DISPOSE]!()` then
`obj[SHALLOW_DISPOSE]?.()`; every reachable state with a composite slot has a
root installed (the assignment on the preceding source line), so the `none`
root branch is never exercised and runs nothing. -/
def runDisposeSlot (o : Obj) : List Nat :=
  match o.dispose with
  | none => []
  | some (.direct f) => runFn f
  | some .composite =>
      (o.root.elim [] runFn) ++ (o.shallow.elim [] runFn)

/-- Source `dispose(obj)` for a non-array object: if disposable, invoke the composite
callback then `delete obj[DISPOSE]`; otherwise do nothing.  Returns the updated
object and the primitive callbacks that ran. -/
def disposeObj (o : Obj) : Obj × List Nat :=
  if o.dispose.isSome then
    ({ o with dispose := none }, runDisposeSlot o)
  else
    (o, [])

/-- Source `disposable(obj, disposeFn)`: attach or chain a cleanup.  On an already
disposable object the original DISPOSE callback is saved as the root (if no
root yet), `disposeFn` is appended to the shallow chain, and the DISPOSE slot
becomes the composite closure.  Otherwise DISPOSE is defined directly.  The
`composite`-with-no-root fallback mirrors a state the API cannot reach. -/
def disposable (o : Obj) (f : CleanupFn) : Obj :=
  match o.dispose with
  | some d =>
      let root' : Option CleanupFn :=
        match o.root with
        | some r => some r
        | none =>
            match d with
            | .direct g => some g
            | .composite => none
      let shallow' : Option CleanupFn :=
        match o.shallow with
        | none => some f
        | some sh => some (.chain sh f)
      { dispose := some .composite, root := root', shallow := shallow' }
  | none =>
      { o with dispose := some (.direct f) }

/-- Source `shallowDispose(obj)` for an object: run only the shallow chain. -/
def shallowDisposeObj (o : Obj) : List Nat :=
  if o.dispose.isSome then o.shallow.elim [] runFn else []

end Disposable

namespace Debounce

/-- State of one debouncer instance from `createDebouncer(scheduler)`:
the `scheduled` flag, the pending `debouncedFn` (callbacks are identified by
numbers), and an instrumentation counter of how many drain callbacks were
handed to the scheduler. -/
structure DebState where
  scheduled : Bool
  debouncedFn : Option Nat
  drainsScheduled : Nat
deriving DecidableEq, Repr

/-- The state of a freshly created debouncer. -/
def initDeb : DebState :=
  { scheduled := false, debouncedFn := none, drainsScheduled := 0 }

/-- Source `debounce(fn)`: remember `fn` as the latest callback; if no drain is
scheduled yet, schedule exactly one. -/
def debounce (s : DebState) (fn : Nat) : DebState :=
  let s1 := { s with debouncedFn := some fn }
  if !s1.scheduled then
    { s1 with scheduled := true, drainsScheduled := s1.drainsScheduled + 1 }
  else
    s1

/-- The scheduled drain: run the pending callback if any (`debouncedFn?.()`),
then clear the slot and the flag.  Returns the new state and the callback that
was executed, if any. -/
def drain (s : DebState) : DebState × Option Nat :=
  ({ s with debouncedFn := none, scheduled := false }, s.debouncedFn)

/-- Register a whole batch of callbacks within one synchronous turn. -/
def registerAll (s : DebState) (fns : List Nat) : DebState :=
  fns.foldl debounce s

end Debounce

namespace Stores

/-- A JavaScript runtime value as far as `safeNotEqual` and the store layer
distinguish them.  Objects and functions are identified by reference ids, so
model equality coincides with JS `===`. -/
inductive JSValue where
  | vnull
  | vundef
  | vbool (b : Bool)
  | vnum (q : Int)
  | vstr (s : String)
  | vobj (id : Nat)
  | vfun (id : Nat)
deriving DecidableEq, Repr

/-- Models `typeof a === 'object'` for a non-null `a` (JS: `typeof null` is also
`'object'`, but `safeNotEqual` tests `a !== null` separately). -/
def isObjType : JSValue → Bool
  | .vobj _ => true
  | _ => false

/-- Models `typeof a === 'function'`. -/
def isFunType : JSValue → Bool
  | .vfun _ => true
  | _ => false

/-- Source `safeNotEqual(a, b)` from stores/utils.ts:
`a !== b || (a !== null && (typeof a === 'object' || typeof a === 'function'))`. -/
def safeNotEqual (a b : JSValue) : Bool :=
  (a != b) || (a != .vnull && (isObjType a || isFunType a))

/-- State of one `writable` store.  Subscribers are identified by numbers
(each `subscribe` call adds a fresh `[run, invalidate]` pair, so even a
repeated callback function gets its own entry).  `stopActive` models
`stop != null`, i.e. the store has started; `startFn` models the net effect of
the `start(set, update)` notifier on the value: while `start` runs, `stop` is
still null, so its `set`/`update` calls mutate the value without notifying. -/
structure WStore where
  value : JSValue
  subs : List Nat
  stopActive : Bool
  startFn : JSValue → JSValue

/-- Source `writable(initialValue, start)` before any subscription. -/
def mkWritable (v : JSValue) (start : JSValue → JSValue) : WStore :=
  { value := v, subs := [], stopActive := false, startFn := start }

/-- Source `subscribe(run, invalidate?)` for subscriber id `sid`: add the subscriber;
if it is the first one, run `start` (updating the value silently) and set
`stop`; then synchronously `run(value)`.  Returns the new store state and the
trace of `run` invocations made before `subscribe` returns, as
(subscriber, delivered value) pairs. -/
def subscribeW (s : WStore) (sid : Nat) : WStore × List (Nat × JSValue) :=
  let subs' := s.subs ++ [sid]
  let s' :=
    if subs'.length = 1 then
      { s with subs := subs', value := s.startFn s.value, stopActive := true }
    else
      { s with subs := subs' }
  (s', [(sid, s'.value)])

/-- The unsubscriber returned by `subscribe`: delete the subscriber; if none
remain and the store had started, call `stop()` and clear it. -/
def unsubscribeW (s : WStore) (sid : Nat) : WStore :=
  let subs' := s.subs.erase sid
  if subs'.length = 0 && s.stopActive then
    { s with subs := subs', stopActive := false }
  else
    { s with subs := subs' }

/-- Source `set(newValue)` on a started store with an initially empty module-level
subscriber queue: when `safeNotEqual(value, newValue)`, assign the value, call
every subscriber's invalidator, push `(subscriber, value)` pairs onto the
queue, then drain the queue calling each `run(value)`.  Returns the new state,
the invalidator trace, and the `run` trace. -/
def setW (s : WStore) (newValue : JSValue) : WStore × List Nat × List (Nat × JSValue) :=
  if safeNotEqual s.value newValue then
    let s' := { s with value := newValue }
    if s.stopActive then
      let queue := s.subs.foldl (fun acc sub => acc ++ [(sub, s'.value)]) []
      (s', s.subs, queue)
    else
      (s', [], [])
  else
    (s, [], [])

/-- A reference to a store argument of `derived`: either a genuine store
object (identified by id) or the JS `null`/`undefined` hole. The TS sources
pass `Readable` objects, so the only falsy inhabitants of the argument list
are null and undefined. -/
inductive StoreArg where
  | store (id : Nat)
  | nullish
deriving DecidableEq, Repr

/-- The `stores` parameter of `derived`: a single store or an array. -/
inductive StoresParam where
  | one (s : StoreArg)
  | many (l : List StoreArg)
deriving DecidableEq, Repr

/-- Models `Boolean(arg)` for a store argument: objects are truthy. -/
def argTruthy : StoreArg → Bool
  | .store _ => true
  | .nullish => false

/-- Source `derived(stores, fn, initialValue)` up to its synchronous outcome:
normalise to an array (`single` detection by `Array.isArray`), then
`if (!storesArray.every(Boolean)) throw`; otherwise return the readable built
over exactly those sources.  `Except.error` models the thrown exception. -/
def derivedCheck (stores : StoresParam) : Except String (List Nat) :=
  let storesArray :=
    match stores with
    | .one s => [s]
    | .many l => l
  if storesArray.all argTruthy then
    .ok (storesArray.filterMap (fun a =>
      match a with
      | .store id => some id
      | .nullish => none))
  else
    .error "derived() expects stores as input, got a falsy value"

end Stores

namespace Template

/-- A store value interpolated into a template: its reference identity `sid`
and whether its current value (`store.get()`) is a ConditionalAttr object. -/
structure StoreV where
  sid : Nat
  curCond : Bool
deriving DecidableEq, Repr

/-- An interpolated value, classified the way `tmpl`/`tmplValue` probe it:
a readable store, an EventHandler object, a ConditionalAttr object, an
ActionAttr object, or any other plain value. -/
inductive TValue where
  | store (s : StoreV)
  | evh (pid : Nat)
  | cond (pid : Nat)
  | act (pid : Nat)
  | plain (pid : Nat)
deriving DecidableEq, Repr

/-- Source `isReadable(value)`. -/
def isReadableV : TValue → Bool
  | .store _ => true
  | _ => false

/-- Source `isReadable(value) && isConditionalAttr(value.get())`. -/
def storeCurCond : TValue → Bool
  | .store s => s.curCond
  | _ => false

/-- An entry of the `stores` array being built by `tmpl`: either the original
observable referenced as-is, or `writable(value)` freshly wrapping a
non-observable value. -/
inductive TEntry where
  | ref (sid : Nat)
  | wrapped (v : TValue)
deriving DecidableEq, Repr

/-- The predicate of `stores.findIndex((v) => v == value)` when `value` is a
store: loose equality of an entry (`Readable | null`) against the store object
holds only for the very same store reference. -/
def entryIsSameStore (value : TValue) : Option TEntry → Bool
  | some (.ref sid) =>
      match value with
      | .store s => sid == s.sid
      | _ => false
  | _ => false

/-- Whether the last character of the preceding literal chunk is a quote
(`previousStr[previousStr.length - 1].match(/['"]/)`); an empty chunk has no
last character and yields false. -/
def lastIsQuote (s : String) : Bool :=
  match s.toList.getLast? with
  | some c => c == '"' || c == '\''
  | none => false

/-- Source `tmplValue(bindingIndex, value, previousStr)`: the placeholder text
emitted for one interpolation, with the event-handler comment wrapping and
the auto-quoting of conditional/action attribute placeholders. -/
def tmplValue (bindingIndex : Nat) (value : TValue) (previousStr : String) : String :=
  let ph := "#\x7b" ++ toString bindingIndex ++ "\x7d"
  match value with
  | .evh _ =>
      let tv := "/*" ++ ph ++ "*/"
      if !(lastIsQuote previousStr) then "\"" ++ tv ++ "\"" else tv
  | .cond _ =>
      if !(lastIsQuote previousStr) then "\"" ++ ph ++ "\"" else ph
  | v =>
      if storeCurCond v then
        if !(lastIsQuote previousStr) then "\"" ++ ph ++ "\"" else ph
      else
        match v with
        | .act _ => if !(lastIsQuote previousStr) then "\"" ++ ph ++ "\"" else ph
        | _ => ph

/-- The loop state of `tmpl`: the markup accumulated so far, the `stores`
array (entries `none` model the `null` markers for deduplicated stores), and,
as instrumentation, the binding index each processed interpolation emitted
into its placeholder. -/
structure TmplState where
  template : String
  stores : List (Option TEntry)
  keys : List Nat
deriving DecidableEq, Repr

/-- One iteration of the `tmpl` loop at position `i` with literal chunk
`str`: append the chunk; if a value exists at `i`, compute its binding index
(reusing the index of an earlier occurrence of the same store), record the
store entry (`none` when deduplicated, `writable(value)` when plain), and
append the placeholder. -/
def tmplStep (values : List TValue) (st : TmplState) (i : Nat) (str : String) : TmplState :=
  let st1 := { st with template := st.template ++ str }
  match values[i]? with
  | none => st1
  | some value =>
      if isReadableV value then
        let existingIndex := st1.stores.findIdx? (entryIsSameStore value)
        let bindingIndex := existingIndex.getD i
        let store : Option TEntry :=
          match existingIndex with
          | some _ => none
          | none =>
              match value with
              | .store s => some (.ref s.sid)
              | _ => none
        { template := st1.template ++ tmplValue bindingIndex value str,
          stores := st1.stores ++ [store],
          keys := st1.keys ++ [bindingIndex] }
      else
        { template := st1.template ++ tmplValue i value str,
          stores := st1.stores ++ [some (.wrapped value)],
          keys := st1.keys ++ [i] }

/-- Run the `tmpl` loop over all literal chunks. -/
def tmplRun (strings : List String) (values : List TValue) : TmplState :=
  strings.enum.foldl (fun st p => tmplStep values st p.1 p.2) ⟨"", [], []⟩

/-- Source `tmpl(strings, values)`: the markup string and the bindings table
`Object.fromEntries(stores.map((s, i) => [i, s]).filter(([_, s]) => s != null))`. -/
def tmpl (strings : List String) (values : List TValue) :
    String × List (Nat × TEntry) :=
  let st := tmplRun strings values
  (st.template, st.stores.enum.filterMap (fun p => p.2.map (fun e => (p.1, e))))

/-- The binding index referenced by the placeholder emitted at each position
(instrumentation read back from the loop state). -/
def tmplKeys (strings : List String) (values : List TValue) : List Nat :=
  (tmplRun strings values).keys

end Template

namespace Target

/-- A value handed to `updateDomTarget`, restricted to the cases the claims
exercise: an Element node, a Text node, an array of Element/Text nodes (node
references are numeric ids, so model equality is JS reference equality), or a
plain value carrying its serialized form.  HtmlLiterals values (materialized
through `node()`) are outside this model. -/
inductive DValue where
  | el (id : Nat)
  | txt (id : Nat)
  | arr (ids : List Nat)
  | plain (s : String)
deriving DecidableEq, Repr

/-- The wrapper `target`: which occupant (element, text node, node array) currently fills
the slot. -/
structure DomTargetWrapper where
  el : Option Nat
  text : Option Nat
  array : Option (List Nat)
deriving DecidableEq, Repr

/-- The `replaceBy` argument shapes: one node or a node array. -/
inductive NodeOrList where
  | node (id : Nat)
  | nodes (ids : List Nat)
deriving DecidableEq, Repr

/-- Observable effects of `updateDomTarget`: a queued/executed DOM operation
(`domOp(replaceBy(...))` or a textContent assignment) or a
`document.createTextNode` call. -/
inductive DomEffect where
  | domOpReplace (old new : NodeOrList)
  | domOpSetText (id : Nat) (content : String)
  | createText (id : Nat) (content : String)
deriving DecidableEq, Repr

/-- A replacement that is either a string (to become a fresh text node) or an
existing Text node. -/
inductive StrOrText where
  | str (s : String)
  | textNode (id : Nat)
deriving DecidableEq, Repr

/-- Models `isText(replacement) ? replacement : document.createTextNode(replacement)`;
`fresh` numbers the created node. -/
def resolveText (r : StrOrText) (fresh : Nat) : Nat × List DomEffect × Nat :=
  match r with
  | .textNode id => (id, [], fresh)
  | .str s => (fresh, [.createText fresh s], fresh + 1)

/-- Source `elementToElement`: skip entirely when the replacement is the same
reference as the current element. -/
def elementToElement (e : Nat) (w : DomTargetWrapper) (replacement : Nat) :
    DomTargetWrapper × List DomEffect :=
  if replacement ≠ e then
    ({ w with el := some replacement }, [.domOpReplace (.node e) (.node replacement)])
  else
    (w, [])

/-- Source `elementToText`. -/
def elementToText (e : Nat) (w : DomTargetWrapper) (r : StrOrText) (fresh : Nat) :
    DomTargetWrapper × List DomEffect × Nat :=
  let res := resolveText r fresh
  ({ w with el := none, text := some res.1 },
   res.2.1 ++ [.domOpReplace (.node e) (.node res.1)], res.2.2)

/-- Source `textToElement`. -/
def textToElement (t : Nat) (w : DomTargetWrapper) (replacement : Nat) :
    DomTargetWrapper × List DomEffect :=
  ({ w with text := none, el := some replacement },
   [.domOpReplace (.node t) (.node replacement)])

/-- Source `textToArray`. -/
def textToArray (t : Nat) (w : DomTargetWrapper) (replacement : List Nat) :
    DomTargetWrapper × List DomEffect :=
  ({ w with text := none, array := some replacement },
   [.domOpReplace (.node t) (.nodes replacement)])

/-- Source `textToText`: a Text replacement equal by reference to the occupant is
skipped; a string replacement always assigns textContent. -/
def textToText (t : Nat) (w : DomTargetWrapper) (r : StrOrText) :
    DomTargetWrapper × List DomEffect :=
  match r with
  | .textNode t' =>
      if t' ≠ t then ({ w with text := some t' }, [.domOpReplace (.node t) (.node t')])
      else (w, [])
  | .str s => (w, [.domOpSetText t s])

/-- Source `arrayToArray`: unconditional replacement, no same-reference check. -/
def arrayToArray (a : List Nat) (w : DomTargetWrapper) (replacement : List Nat) :
    DomTargetWrapper × List DomEffect :=
  ({ w with array := some replacement }, [.domOpReplace (.nodes a) (.nodes replacement)])

/-- Source `arrayToText`. -/
def arrayToText (a : List Nat) (w : DomTargetWrapper) (r : StrOrText) (fresh : Nat) :
    DomTargetWrapper × List DomEffect × Nat :=
  let res := resolveText r fresh
  ({ w with array := none, text := some res.1 },
   res.2.1 ++ [.domOpReplace (.nodes a) (.node res.1)], res.2.2)

/-- Source `mapArray` on an array whose first entry is an Element or Text node:
the array is passed through unchanged (the model's arrays hold node ids). -/
def mapArray (ids : List Nat) : List Nat := ids

/-- Source `updateDomTarget(target, value, bindingKey, updateDomMode, serializeFn)`:
classify the current occupant, then the value, and perform the corresponding
transition.  `ser` stands for `serializeFn` (already applied to the binding
key), `fresh` numbers created text nodes; the update mode only selects how
`domOp` schedules the write and is irrelevant to which effects occur. -/
def updateDomTarget (w : DomTargetWrapper) (value : DValue) (ser : DValue → String)
    (fresh : Nat) : DomTargetWrapper × List DomEffect × Nat :=
  match w.el with
  | some e =>
      match value with
      | .el r => let res := elementToElement e w r; (res.1, res.2, fresh)
      | .txt t => elementToText e w (.textNode t) fresh
      | v => elementToText e w (.str (ser v)) fresh
  | none =>
  match w.text with
  | some t =>
      match value with
      | .el r => let res := textToElement t w r; (res.1, res.2, fresh)
      | .txt t' => let res := textToText t w (.textNode t'); (res.1, res.2, fresh)
      | .arr [] => let res := textToText t w (.str ""); (res.1, res.2, fresh)
      | .arr ids => let res := textToArray t w (mapArray ids); (res.1, res.2, fresh)
      | .plain s => let res := textToText t w (.str (ser (.plain s))); (res.1, res.2, fresh)
  | none =>
  match w.array, w.el, w.text with
  | some (a :: rest), none, none =>
      match value with
      | .arr [] => arrayToText (a :: rest) w (.str "") fresh
      | .arr ids => let res := arrayToArray (a :: rest) w (mapArray ids); (res.1, res.2, fresh)
      | .txt t => arrayToText (a :: rest) w (.textNode t) fresh
      | _ => (w, [], fresh)
  | _, _, _ =>
      match value with
      | .el e => ({ w with el := some e }, [], fresh)
      | .txt t => ({ w with text := some t }, [], fresh)
      | .arr [] => ({ w with text := some fresh }, [.createText fresh ""], fresh + 1)
      | .arr ids => ({ w with array := some (mapArray ids) }, [], fresh)
      | .plain s =>
          ({ w with text := some fresh }, [.createText fresh (ser (.plain s))], fresh + 1)

end Target

namespace Rebind

/-- A value interpolated into a literals object: a readable store (identified
by reference) or a plain value (identified so that model equality coincides
with JS `!==` on the original values). -/
inductive RValue where
  | storeV (sid : Nat)
  | plainV (pid : Nat)
deriving DecidableEq, Repr

/-- Source `isReadable(newValue)`. -/
def isReadableR : RValue → Bool
  | .storeV _ => true
  | _ => false

/-- The backing store found in a binding: a writable or a read-only store. -/
inductive SRef where
  | writableS (sid : Nat)
  | readableS (sid : Nat)
deriving DecidableEq, Repr

/-- Source `isWritable(bindingStore)` where `bindingStore` may be `undefined`. -/
def isWritableS : Option SRef → Bool
  | some (.writableS _) => true
  | _ => false

/-- The slice of a `Binding` record the value-update pass of `rebind` reads:
its backing store and its DomLink (identified by reference). -/
structure BindingR where
  store : SRef
  domLink : Nat
deriving DecidableEq, Repr

/-- Observable effects of the value-update pass, tagged with the position `i`
that produced them: `bindingStore.set(newValue)`, `disposeRec(oldValue)`, and
the non-writable-binding `console.warn`. -/
inductive REffect where
  | setStore (i : Nat) (sid : Nat) (v : RValue)
  | disposeRecOld (i : Nat) (v : RValue)
  | warnNotWritable (i : Nat)
deriving DecidableEq, Repr

/-- Models `impactedDomLinks.add(domLink)`: JS `Set` insertion keeps first-insertion
order and deduplicates. -/
def addToSet (l : List (Option Nat)) (x : Option Nat) : List (Option Nat) :=
  if x ∈ l then l else l ++ [x]

/-- Models `oldLiterals.bindings?.[i]`: short-circuits to `undefined` when the
bindings array is absent, but throws a TypeError (`.store` / `.domLink` read
on `undefined`) when the array exists and has no entry at `i`. -/
def bindingAt (bindings : Option (List BindingR)) (i : Nat) :
    Except String (Option BindingR) :=
  match bindings with
  | none => .ok none
  | some bs =>
      match bs[i]? with
      | some b => .ok (some b)
      | none => .error "TypeError: reading property of undefined binding"

/-- The body of the value-update loop of `rebind` at position `i`, acting on
the accumulated effects and impacted-DomLink set. -/
def rebindStep (oldValues : List RValue) (bindings : Option (List BindingR))
    (acc : List REffect × List (Option Nat)) (i : Nat) (newValue : RValue) :
    Except String (List REffect × List (Option Nat)) :=
  let oldValue := oldValues[i]?
  if some newValue ≠ oldValue then
    match bindingAt bindings i with
    | .error e => .error e
    | .ok b =>
        if isReadableR newValue then
          .ok (acc.1, addToSet acc.2 (b.map (fun x => x.domLink)))
        else
          match b.map (fun x => x.store) with
          | some (SRef.writableS sid) =>
              let disposeEffs :=
                match oldValue with
                | some ov => [REffect.disposeRecOld i ov]
                | none => []
              .ok (acc.1 ++ [REffect.setStore i sid newValue] ++ disposeEffs, acc.2)
          | _ =>
              .ok (acc.1 ++ [REffect.warnNotWritable i], acc.2)
  else
    .ok acc

/-- The value-update pass of `rebind`
(`for (let i = 0; i < newLiterals.values.length; i++) ...`): compare values
positionally, push plain values into their writable backing store (disposing
the discarded old value), warn and skip when the backing store is not
writable, and collect the DomLinks of positions whose new value is a store.
The DomLink re-creation pass that follows is outside this model. -/
def rebindValuePass (oldValues newValues : List RValue)
    (bindings : Option (List BindingR)) :
    Except String (List REffect × List (Option Nat)) :=
  newValues.enum.foldlM (fun acc p => rebindStep oldValues bindings acc p.1 p.2)
    ([], [])

end Rebind

namespace Diffing

/-- Operation kinds of the diff script. -/
inductive OpType where
  | ADD
  | DEL
  | MOV
deriving DecidableEq, Repr

/-- One diff operation; `indexDst` is set for MOV only.  Indices are integers
because the pairwise-swap case can emit `addIndex - 1 = -1`, which
`Array.prototype.splice` interprets relative to the end. -/
structure Op (T : Type) where
  type : OpType
  item : T
  index : Int
  indexDst : Option Int
deriving DecidableEq, Repr

/-- The start-index normalisation of `Array.prototype.splice`: negative
indices count from the end (clamped at 0), positive ones are clamped at the
length. -/
def jsStart (start : Int) (len : Nat) : Nat :=
  if start < 0 then ((len : Int) + start).toNat else min start.toNat len

/-- Source `arr.splice(start, 1)`: remove the element at the normalised start index
(no element is removed when the index falls at or past the end). -/
def spliceRemove1 (l : List T) (start : Int) : List T :=
  let s := jsStart start l.length
  l.take s ++ l.drop (s + 1)

/-- Source `arr.splice(start, 0, x)`: insert `x` before the normalised start index. -/
def spliceInsert (l : List T) (start : Int) (x : T) : List T :=
  let s := jsStart start l.length
  l.take s ++ x :: l.drop s

/-- One step of `applyOps`: DEL removes at `index`, ADD inserts before
`index`, MOV removes at `index` then reinserts at `indexDst` (a missing
`indexDst` coerces to 0 under splice, like `undefined` in JS). -/
def applyOp (arr : List T) (op : Op T) : List T :=
  match op.type with
  | .DEL => spliceRemove1 arr op.index
  | .ADD => spliceInsert arr op.index op.item
  | .MOV => spliceInsert (spliceRemove1 arr op.index) (op.indexDst.getD 0) op.item

/-- Source `applyOps(arr, ops)`: fold the operations over a copy of the array. -/
def applyOps (arr : List T) (ops : List (Op T)) : List T :=
  ops.foldl applyOp arr

/-- Source `eq(itemA, itemB)`: key equality. -/
def eqk (key : T → String) (a b : T) : Bool :=
  key a == key b

/-- Source `includes(arr, searchedItem)`. -/
def includesk (key : T → String) (arr : List T) (x : T) : Bool :=
  arr.any (fun it => eqk key it x)

/-- Source `indexOf(arr, searchedItem)`: first index with an equal key, `-1` when
absent. -/
def indexOfk (key : T → String) (arr : List T) (x : T) : Int :=
  match arr.findIdx? (fun it => eqk key it x) with
  | some i => (i : Int)
  | none => -1

/-- Models `arr[i]` under JS semantics for a possibly negative index. -/
def intGet? (l : List T) (i : Int) : Option T :=
  if i < 0 then none else l[i.toNat]?

/-- A detected move. -/
structure Move (T : Type) where
  item : T
  indexSrc : Nat
  indexDst : Int
deriving DecidableEq, Repr

/-- Models `eq(item, targetArr[i])` where `i` can be out of range: JS evaluates
`keyFn(undefined)` there, which matches no item key for the key functions in
use; modelled as not-equal. -/
def eqAt (key : T → String) (item : T) (target : List T) (i : Nat) : Bool :=
  match target[i]? with
  | some t => eqk key item t
  | none => false

/-- The scan of `findMove` from position `i` on. -/
def findMoveAux (key : T → String) (target : List T) : List T → Nat → Option (Move T)
  | [], _ => none
  | x :: rest, i =>
      if includesk key target x && !(eqAt key x target i) then
        some ⟨x, i, indexOfk key target x⟩
      else
        findMoveAux key target rest (i + 1)

/-- Source `findMove(currArr, targetArr)`: the first position whose item exists in
the target but under a different index. -/
def findMove (key : T → String) (curr target : List T) : Option (Move T) :=
  findMoveAux key target curr 0

/-- The deletion scan: walk the old array from the last index down to 0 and
emit a DEL for every item whose key is absent from the new array. -/
def deletions (key : T → String) (newArray old : List T) : List (Op T) :=
  (List.range old.length).reverse.filterMap (fun (i : Nat) =>
    match old[i]? with
    | some item =>
        if !(includesk key newArray item) then some ⟨.DEL, item, (i : Int), none⟩
        else none
    | none => none)

/-- The addition scan: walk the new array front to back and emit an ADD for
every item whose key is absent from the old array. -/
def additions (key : T → String) (oldArray newArray : List T) : List (Op T) :=
  (List.range newArray.length).filterMap (fun (i : Nat) =>
    match newArray[i]? with
    | some item =>
        if !(includesk key oldArray item) then some ⟨.ADD, item, (i : Int), none⟩
        else none
    | none => none)

/-- The one or two MOV operations pushed for a detected move: the move
itself, plus the completing move of a pairwise swap when
`eq(newArray[delIndex], oldArray[addIndex])` (out-of-range accesses match
nothing, see `eqAt`). -/
def bufferMovesFor (key : T → String) (oldArray newArray : List T) (mv : Move T) :
    List (Op T) :=
  let m1 : Op T := ⟨.MOV, mv.item, (mv.indexSrc : Int), some mv.indexDst⟩
  match newArray[mv.indexSrc]?, intGet? oldArray mv.indexDst with
  | some nd, some oa =>
      if eqk key nd oa then
        [m1, ⟨.MOV, nd, mv.indexDst - 1, some (mv.indexSrc : Int)⟩]
      else
        [m1]
  | _, _ => [m1]

theorem bufferMovesFor_length_pos (key : T → String) (oldArray newArray : List T)
    (mv : Move T) : 0 < (bufferMovesFor key oldArray newArray mv).length := by
  unfold bufferMovesFor
  cases newArray[mv.indexSrc]? with
  | none => simp
  | some nd =>
      cases intGet? oldArray mv.indexDst with
      | none => simp
      | some oa => by_cases h : eqk key nd oa <;> simp [h]

/-- The move-detection loop: find a move, push its MOV operation(s), apply
them to the working buffer, and bail out with `overkill` once
`deletions + additions + moves` reaches the new array's length
(`delsAdds` is the fixed `deletions.length + additions.length`). -/
def moveLoop (key : T → String) (oldArray newArray : List T) (delsAdds : Nat)
    (buffer : List T) (moves : List (Op T)) : List (Op T) × Bool :=
  match findMove key buffer newArray with
  | none => (moves, false)
  | some mv =>
      if delsAdds + (moves ++ bufferMovesFor key oldArray newArray mv).length ≥
          newArray.length then
        (moves ++ bufferMovesFor key oldArray newArray mv, true)
      else
        moveLoop key oldArray newArray delsAdds
          (applyOps buffer (bufferMovesFor key oldArray newArray mv))
          (moves ++ bufferMovesFor key oldArray newArray mv)
termination_by newArray.length - (delsAdds + moves.length)
decreasing_by
  have hpos := bufferMovesFor_length_pos key oldArray newArray mv
  simp only [List.length_append] at *
  omega

/-- The result of `diffArray`: the operation list and the `overkill` flag
(`false` models an absent flag). -/
structure DiffResult (T : Type) where
  ops : List (Op T)
  overkill : Bool
deriving DecidableEq, Repr

/-- Source `diffArray(oldArray, newArray, keyFn)`. -/
def diffArray (key : T → String) (oldArray : Option (List T)) (newArray : List T) :
    DiffResult T :=
  match oldArray with
  | none => ⟨[], true⟩
  | some old =>
      let dels := deletions key newArray old
      if dels.length ≥ old.length then
        ⟨dels, true⟩
      else
        let buffer1 := applyOps old dels
        let adds := additions key old newArray
        let buffer2 := applyOps buffer1 adds
        let res := moveLoop key old newArray (dels.length + adds.length) buffer2 []
        ⟨dels ++ adds ++ res.1, res.2⟩

end Diffing

section DisposalClaims

open Disposable

/-- Claim C3: for every disposable value (any chain of `disposable`
attachments), calling `dispose` twice invokes the attached cleanup chain
exactly once: the first call runs the composite cleanup and removes the
disposable marker, so the second call is a no-op. -/
theorem claim_C3_dispose_idempotent (o : Obj) :
    (disposeObj (disposeObj o).1).2 = [] ∧
    (disposeObj (disposeObj o).1).1 = (disposeObj o).1 ∧
    (disposeObj o).2 ++ (disposeObj (disposeObj o).1).2 = (disposeObj o).2 := by
  cases h : o.dispose <;>
    simp [disposeObj, runDisposeSlot, h]

end DisposalClaims

section DebounceClaims

open Debounce

theorem debounce_debouncedFn (s : DebState) (f : Nat) :
    (debounce s f).debouncedFn = some f := by
  simp only [debounce]
  split <;> rfl

theorem registerAll_debouncedFn (fns : List Nat) :
    ∀ s : DebState, (registerAll s fns).debouncedFn = fns.getLast?.or s.debouncedFn := by
  induction fns with
  | nil => intro s; simp [registerAll]
  | cons f rest ih =>
      intro s
      have hstep : registerAll s (f :: rest) = registerAll (debounce s f) rest := by
        simp [registerAll]
      rw [hstep, ih, debounce_debouncedFn]
      cases rest with
      | nil => simp
      | cons g rest' =>
          obtain ⟨x, hx⟩ := Option.isSome_iff_exists.mp (List.getLast?_isSome.mpr
            (by simp : (g :: rest') ≠ []))
          simp [List.getLast?_cons_cons, hx]

theorem registerAll_scheduled_stable (fns : List Nat) :
    ∀ s : DebState, s.scheduled = true →
      (registerAll s fns).scheduled = true ∧
      (registerAll s fns).drainsScheduled = s.drainsScheduled := by
  induction fns with
  | nil => intro s h; exact ⟨h, rfl⟩
  | cons f rest ih =>
      intro s h
      have hstep : registerAll s (f :: rest) = registerAll (debounce s f) rest := by
        simp [registerAll]
      have hdeb : debounce s f = { s with debouncedFn := some f } := by
        simp [debounce, h]
      rw [hstep, hdeb]
      exact ih _ h

/-- Claim C4: registering `n ≥ 1` callbacks on a fresh debouncer within one
synchronous turn schedules exactly one drain, and that drain executes exactly
one callback — the last one registered; a subsequent drain executes none. -/
theorem claim_C4_debounce_coalesce (fns : List Nat) (h : fns ≠ []) :
    (drain (registerAll initDeb fns)).2 = fns.getLast? ∧
    (registerAll initDeb fns).drainsScheduled = 1 ∧
    (drain (drain (registerAll initDeb fns)).1).2 = none := by
  refine ⟨?_, ?_, rfl⟩
  · show (registerAll initDeb fns).debouncedFn = fns.getLast?
    rw [registerAll_debouncedFn fns initDeb]
    obtain ⟨x, hx⟩ := Option.isSome_iff_exists.mp (List.getLast?_isSome.mpr h)
    rw [hx]
    rfl
  · cases fns with
    | nil => exact absurd rfl h
    | cons f rest =>
        have hstep : registerAll initDeb (f :: rest) = registerAll (debounce initDeb f) rest := by
          simp [registerAll]
        have hdeb : debounce initDeb f =
            { scheduled := true, debouncedFn := some f, drainsScheduled := 1 } := by
          simp [debounce, initDeb]
        rw [hstep, hdeb]
        exact (registerAll_scheduled_stable rest _ rfl).2

/-- Witness for C4 at the spec's three-registration example. -/
theorem claim_C4_debounce_coalesce_witness :
    (drain (registerAll initDeb [10, 11, 12])).2 = some 12 ∧
    (registerAll initDeb [10, 11, 12]).drainsScheduled = 1 ∧
    (drain (drain (registerAll initDeb [10, 11, 12])).1).2 = none := by
  have h := claim_C4_debounce_coalesce [10, 11, 12] (by simp)
  simpa using h

end DebounceClaims

section DerivedClaims

open Stores

/-- The source list handed to `derived` contains a null/undefined entry. -/
def Stores.hasNullish : StoresParam → Prop
  | .one s => s = .nullish
  | .many l => .nullish ∈ l

/-- Claim C8: `derived(stores, fn, initialValue)` throws synchronously iff
the source list contains a null/undefined entry; with valid stores it returns
the readable over those sources without throwing. -/
theorem claim_C8_derived_throws_iff_nullish (p : StoresParam) :
    (∃ msg, derivedCheck p = .error msg) ↔ Stores.hasNullish p := by
  cases p with
  | one s =>
      cases s <;> simp [derivedCheck, Stores.hasNullish, argTruthy]
  | many l =>
      constructor
      · intro ⟨msg, hmsg⟩
        simp only [derivedCheck] at hmsg
        split at hmsg
        · exact absurd hmsg (by simp)
        · rename_i hall
          simp only [List.all_eq_true, not_forall] at hall
          obtain ⟨a, ha, hfalse⟩ := hall
          cases a with
          | store id => simp [argTruthy] at hfalse
          | nullish => exact ha
      · intro hmem
        refine ⟨"derived() expects stores as input, got a falsy value", ?_⟩
        simp only [derivedCheck]
        split
        · rename_i hall
          rw [List.all_eq_true] at hall
          have := hall _ hmem
          simp [argTruthy] at this
        · rfl

end DerivedClaims

section StoreClaims

open Stores

/-- Claim C9: on every store built by `writable`/`readable`, `subscribe`
synchronously invokes the subscriber exactly once, with the store's current
value, before returning, and hands back an unsubscribe function that removes
exactly that subscriber. -/
theorem claim_C9_subscribe_sync_once (s : WStore) (sid : Nat) (h : sid ∉ s.subs) :
    (subscribeW s sid).2.map Prod.fst = [sid] ∧
    (subscribeW s sid).2 = [(sid, (subscribeW s sid).1.value)] ∧
    (unsubscribeW (subscribeW s sid).1 sid).subs = s.subs := by
  refine ⟨rfl, rfl, ?_⟩
  have herase : (s.subs ++ [sid]).erase sid = s.subs := by
    rw [List.erase_append_right _ h]
    simp
  simp only [subscribeW, unsubscribeW]
  split <;> split <;> simp_all [herase]

/-- Witness for C9: a started store with one other subscriber. -/
theorem claim_C9_subscribe_sync_once_witness :
    (subscribeW ⟨.vnum 4, [7], true, id⟩ 3).2.map Prod.fst = [3] ∧
    (subscribeW ⟨.vnum 4, [7], true, id⟩ 3).2 =
      [(3, (subscribeW ⟨.vnum 4, [7], true, id⟩ 3).1.value)] ∧
    (unsubscribeW (subscribeW ⟨.vnum 4, [7], true, id⟩ 3).1 3).subs = [7] :=
  claim_C9_subscribe_sync_once ⟨.vnum 4, [7], true, id⟩ 3 (by simp)

theorem foldl_push_pairs (subs : List Nat) (v : JSValue) :
    ∀ acc : List (Nat × JSValue),
      subs.foldl (fun acc sub => acc ++ [(sub, v)]) acc =
        acc ++ subs.map (fun sub => (sub, v)) := by
  induction subs with
  | nil => intro acc; simp
  | cons a rest ih => intro acc; simp [ih]

/-- Claim C10: on a started writable store, `set(newValue)` notifies the
subscribers (invalidators, then each `run` with the new value) iff
`safeNotEqual(currentValue, newValue)`; re-setting an equal primitive
(boolean, number, string, null, undefined) is a silent no-op, while setting an
object or function value notifies even when it is reference-equal. -/
theorem claim_C10_set_notifies_iff_safeNotEqual (s : WStore) (v : JSValue)
    (hready : s.stopActive = true) :
    ((setW s v).2.2 = if safeNotEqual s.value v then s.subs.map (fun sub => (sub, v))
      else []) ∧
    ((setW s v).2.1 = if safeNotEqual s.value v then s.subs else []) ∧
    ((setW s v).1.value = if safeNotEqual s.value v then v else s.value) ∧
    (safeNotEqual s.value v = false → setW s v = (s, [], [])) ∧
    (∀ a : JSValue, (isObjType a || isFunType a) = true → safeNotEqual a a = true) ∧
    (∀ a : JSValue, (isObjType a || isFunType a) = false → safeNotEqual a a = false) := by
  refine ⟨?_, ?_, ?_, ?_, ?_, ?_⟩
  · by_cases hne : safeNotEqual s.value v <;>
      simp [setW, hne, hready, foldl_push_pairs]
  · by_cases hne : safeNotEqual s.value v <;> simp [setW, hne, hready]
  · by_cases hne : safeNotEqual s.value v <;> simp [setW, hne, hready]
  · intro hne; simp [setW, hne]
  · intro a ha
    cases a <;> simp_all [safeNotEqual, isObjType, isFunType]
  · intro a ha
    cases a <;> simp_all [safeNotEqual, isObjType, isFunType]

/-- Witness for C10: a started store holding the number 4, set to the same
number (no-op) — the theorem applied at a concrete input. -/
theorem claim_C10_set_notifies_iff_safeNotEqual_witness :
    ((setW ⟨.vnum 4, [7], true, id⟩ (.vnum 4)).2.2 =
      if safeNotEqual (JSValue.vnum 4) (.vnum 4)
        then [7].map (fun sub => (sub, JSValue.vnum 4)) else []) ∧
    (safeNotEqual (JSValue.vnum 4) (.vnum 4) = false →
      setW ⟨.vnum 4, [7], true, id⟩ (.vnum 4) = (⟨.vnum 4, [7], true, id⟩, [], [])) :=
  ⟨(claim_C10_set_notifies_iff_safeNotEqual ⟨.vnum 4, [7], true, id⟩ (.vnum 4) rfl).1,
   (claim_C10_set_notifies_iff_safeNotEqual ⟨.vnum 4, [7], true, id⟩ (.vnum 4) rfl).2.2.2.1⟩

end StoreClaims

section TargetClaims

open Target

/-- Counterexample to claim C5 as stated: a wrapper whose occupant is the
node array `[0]`, updated with the exact same array, still issues a DOM
write (`domOp(replaceBy(target.array, replacement))`) — the update is not
skipped for the array occupant kind. -/
theorem claim_C5_counterexample :
    (updateDomTarget ⟨none, none, some [0]⟩ (.arr [0]) (fun _ => "") 0).2.1 ≠ [] := by
  decide

/-- Claim C5 amended: a value reference-equal to the current occupant is a
complete no-op for the element and text occupant kinds; for the array
occupant kind the wrapper is left unchanged but a `replaceBy` DOM operation
over the identical node list is still issued. -/
theorem claim_C5_same_reference_update (w : DomTargetWrapper) (ser : DValue → String)
    (fresh : Nat) :
    (∀ e, w.el = some e → updateDomTarget w (.el e) ser fresh = (w, [], fresh)) ∧
    (∀ t, w.el = none → w.text = some t →
      updateDomTarget w (.txt t) ser fresh = (w, [], fresh)) ∧
    (∀ a rest, w.el = none → w.text = none → w.array = some (a :: rest) →
      updateDomTarget w (.arr (a :: rest)) ser fresh =
        (w, [.domOpReplace (.nodes (a :: rest)) (.nodes (a :: rest))], fresh)) := by
  obtain ⟨el, text, array⟩ := w
  refine ⟨?_, ?_, ?_⟩
  · intro e he
    subst he
    simp [updateDomTarget, elementToElement]
  · intro t hel ht
    subst hel; subst ht
    simp [updateDomTarget, textToText]
  · intro a rest hel ht ha
    subst hel; subst ht; subst ha
    simp [updateDomTarget, arrayToArray, mapArray]

/-- Witness for the amended C5 at concrete wrappers of all three occupant
kinds. -/
theorem claim_C5_same_reference_update_witness :
    updateDomTarget ⟨some 5, none, none⟩ (.el 5) (fun _ => "") 0 =
      (⟨some 5, none, none⟩, [], 0) ∧
    updateDomTarget ⟨none, some 6, none⟩ (.txt 6) (fun _ => "") 0 =
      (⟨none, some 6, none⟩, [], 0) ∧
    updateDomTarget ⟨none, none, some [0, 1]⟩ (.arr [0, 1]) (fun _ => "") 0 =
      (⟨none, none, some [0, 1]⟩,
        [.domOpReplace (.nodes [0, 1]) (.nodes [0, 1])], 0) :=
  ⟨(claim_C5_same_reference_update ⟨some 5, none, none⟩ (fun _ => "") 0).1 5 rfl,
   (claim_C5_same_reference_update ⟨none, some 6, none⟩ (fun _ => "") 0).2.1 6 rfl rfl,
   (claim_C5_same_reference_update ⟨none, none, some [0, 1]⟩ (fun _ => "") 0).2.2
     0 [1] rfl rfl rfl⟩

end TargetClaims


section RebindClaims

open Rebind

/-- The effects the value-update loop emits at one position (bindings array
present and covering the position). -/
def Rebind.stepEffects (oldValues : List RValue) (bs : List BindingR) (i : Nat)
    (nv : RValue) : List REffect :=
  if some nv ≠ oldValues[i]? then
    if isReadableR nv then []
    else
      match (bs[i]?).map (fun b => b.store) with
      | some (SRef.writableS sid) =>
          [.setStore i sid nv] ++
            (match oldValues[i]? with
             | some ov => [.disposeRecOld i ov]
             | none => [])
      | _ => [.warnNotWritable i]
  else []

/-- The position that produced an effect. -/
def Rebind.effectPos : REffect → Nat
  | .setStore i _ _ => i
  | .disposeRecOld i _ => i
  | .warnNotWritable i => i

theorem stepEffects_pos (oldValues : List RValue) (bs : List BindingR) (i : Nat)
    (nv : RValue) : ∀ e ∈ Rebind.stepEffects oldValues bs i nv,
      Rebind.effectPos e = i := by
  intro e he
  unfold Rebind.stepEffects at he
  split at he
  · split at he
    · simp at he
    · split at he
      · simp only [List.cons_append, List.nil_append, List.mem_cons] at he
        rcases he with h | h
        · simp [h, Rebind.effectPos]
        · rcases hov : oldValues[i]? with _ | ov <;> rw [hov] at h
          · simp at h
          · simp at h
            simp [h, Rebind.effectPos]
      · simp at he
        simp [he, Rebind.effectPos]
  · simp at he

theorem exceptBind_ok {α β : Type} (x : α) (f : α → Except String β) :
    (Except.ok x >>= f) = f x := rfl

theorem rebind_fold_ok (oldValues : List RValue) (bs : List BindingR) :
    ∀ (l : List (Nat × RValue)), (∀ p ∈ l, p.1 < bs.length) →
    ∀ (acc1 : List REffect) (acc2 : List (Option Nat)),
    ∃ imp, l.foldlM (fun acc p => rebindStep oldValues (some bs) acc p.1 p.2)
        (acc1, acc2)
      = .ok (acc1 ++ l.flatMap (fun p => Rebind.stepEffects oldValues bs p.1 p.2), imp) := by
  intro l
  induction l with
  | nil => intro _ acc1 acc2; exact ⟨acc2, by simp; rfl⟩
  | cons p l' ih =>
      intro hb acc1 acc2
      have hp : p.1 < bs.length := hb p (List.mem_cons_self p l')
      have hget : bs[p.1]? = some bs[p.1] := List.getElem?_eq_getElem hp
      have hbind : bindingAt (some bs) p.1 = .ok (some bs[p.1]) := by
        simp [bindingAt, hget]
      have hb' : ∀ q ∈ l', q.1 < bs.length := fun q hq => hb q (List.mem_cons_of_mem p hq)
      by_cases hch : some p.2 ≠ oldValues[p.1]?
      · by_cases hrd : isReadableR p.2 = true
        · obtain ⟨imp, himp⟩ := ih hb' acc1
            (addToSet acc2 (some (bs[p.1].domLink)))
          refine ⟨imp, ?_⟩
          rw [List.foldlM_cons]
          have hstep : rebindStep oldValues (some bs) (acc1, acc2) p.1 p.2 =
              .ok (acc1, addToSet acc2 (some (bs[p.1].domLink))) := by
            simp [rebindStep, hch, hrd, hbind]
          rw [hstep, exceptBind_ok]
          have hse : Rebind.stepEffects oldValues bs p.1 p.2 = [] := by
            simp [Rebind.stepEffects, hch, hrd]
          simp only [List.flatMap_cons, hse, List.nil_append]
          exact himp
        · match hst : bs[p.1].store with
          | SRef.writableS sid =>
              have hse : Rebind.stepEffects oldValues bs p.1 p.2 =
                  [.setStore p.1 sid p.2] ++
                    (match oldValues[p.1]? with
                     | some ov => [.disposeRecOld p.1 ov]
                     | none => []) := by
                simp [Rebind.stepEffects, hch, hrd, hget, hst]
              have hstep : rebindStep oldValues (some bs) (acc1, acc2) p.1 p.2 =
                  .ok (acc1 ++ Rebind.stepEffects oldValues bs p.1 p.2, acc2) := by
                simp [rebindStep, hch, hrd, hbind, hst, hse]
              obtain ⟨imp, himp⟩ :=
                ih hb' (acc1 ++ Rebind.stepEffects oldValues bs p.1 p.2) acc2
              refine ⟨imp, ?_⟩
              rw [List.foldlM_cons, hstep, exceptBind_ok]
              simp only [List.flatMap_cons]
              rw [himp, List.append_assoc]
          | SRef.readableS sid =>
              have hse : Rebind.stepEffects oldValues bs p.1 p.2 =
                  [.warnNotWritable p.1] := by
                simp [Rebind.stepEffects, hch, hrd, hget, hst]
              have hstep : rebindStep oldValues (some bs) (acc1, acc2) p.1 p.2 =
                  .ok (acc1 ++ Rebind.stepEffects oldValues bs p.1 p.2, acc2) := by
                simp [rebindStep, hch, hrd, hbind, hst, hse]
              obtain ⟨imp, himp⟩ :=
                ih hb' (acc1 ++ Rebind.stepEffects oldValues bs p.1 p.2) acc2
              refine ⟨imp, ?_⟩
              rw [List.foldlM_cons, hstep, exceptBind_ok]
              simp only [List.flatMap_cons]
              rw [himp, List.append_assoc]
      · obtain ⟨imp, himp⟩ := ih hb' acc1 acc2
        refine ⟨imp, ?_⟩
        rw [List.foldlM_cons]
        have hstep : rebindStep oldValues (some bs) (acc1, acc2) p.1 p.2 =
            .ok (acc1, acc2) := by
          simp [rebindStep, hch]
        rw [hstep, exceptBind_ok]
        have hse : Rebind.stepEffects oldValues bs p.1 p.2 = [] := by
          simp [Rebind.stepEffects, hch]
        simp only [List.flatMap_cons, hse, List.nil_append]
        exact himp

/-- Claim C7: during `rebind`, at every position whose value changed and
whose new value is plain: with a writable backing store, the new value is
`set()` on it and the discarded old value is recursively disposed (and no
warning is emitted for that position); with a non-writable backing store, a
warning is logged and the position is skipped (no `set`), and the pass
completes without throwing. -/
theorem claim_C7_rebind_plain_value_paths (oldValues newValues : List RValue)
    (bs : List BindingR) (hcover : newValues.length ≤ bs.length) :
    ∃ r, rebindValuePass oldValues newValues (some bs) = .ok r ∧
      ∀ i, ∀ hi : i < newValues.length, ∀ b, bs[i]? = some b →
        some newValues[i] ≠ oldValues[i]? →
        isReadableR newValues[i] = false →
        ((∀ sid, b.store = .writableS sid →
            (REffect.setStore i sid newValues[i] ∈ r.1 ∧
             (∀ ov, oldValues[i]? = some ov → REffect.disposeRecOld i ov ∈ r.1) ∧
             REffect.warnNotWritable i ∉ r.1)) ∧
         (∀ sid, b.store = .readableS sid →
            (REffect.warnNotWritable i ∈ r.1 ∧
             ∀ sid' v, REffect.setStore i sid' v ∉ r.1))) := by
  have hbound : ∀ p ∈ newValues.enum, p.1 < bs.length := by
    intro p hp
    have := List.mem_enum_iff_getElem?.mp hp
    have hlt : p.1 < newValues.length := by
      by_contra hge
      rw [List.getElem?_eq_none (Nat.le_of_not_lt hge)] at this
      exact Option.noConfusion this
    omega
  obtain ⟨imp, himp⟩ := rebind_fold_ok oldValues bs newValues.enum hbound [] []
  set effs := newValues.enum.flatMap
    (fun p => Rebind.stepEffects oldValues bs p.1 p.2) with heffs
  refine ⟨(effs, imp), by simpa [rebindValuePass] using himp, ?_⟩
  intro i hi b hb hch hrd
  have hmem_enum : (i, newValues[i]) ∈ newValues.enum := by
    rw [List.mem_enum_iff_getElem?]
    exact List.getElem?_eq_getElem hi
  have hin : ∀ e ∈ Rebind.stepEffects oldValues bs i newValues[i], e ∈ effs := by
    intro e he
    rw [heffs, List.mem_flatMap]
    exact ⟨(i, newValues[i]), hmem_enum, he⟩
  have hout : ∀ e ∈ effs, Rebind.effectPos e = i →
      e ∈ Rebind.stepEffects oldValues bs i newValues[i] := by
    intro e he hpos
    rw [heffs, List.mem_flatMap] at he
    obtain ⟨p, hp, hpe⟩ := he
    have hpi : p.1 = i := by
      rw [← hpos]
      exact (stepEffects_pos oldValues bs p.1 p.2 e hpe).symm
    have hpv : p.2 = newValues[i] := by
      have h1 := List.mem_enum_iff_getElem?.mp hp
      rw [hpi] at h1
      rw [List.getElem?_eq_getElem hi] at h1
      exact (Option.some.injEq _ _ ▸ h1.symm :)
    rw [hpi, hpv] at hpe
    exact hpe
  constructor
  · intro sid hst
    have hse : Rebind.stepEffects oldValues bs i newValues[i] =
        [.setStore i sid newValues[i]] ++
          (match oldValues[i]? with
           | some ov => [.disposeRecOld i ov]
           | none => []) := by
      simp [Rebind.stepEffects, hch, hrd, hb, hst]
    refine ⟨?_, ?_, ?_⟩
    · exact hin _ (by rw [hse]; simp)
    · intro ov hov
      exact hin _ (by rw [hse, hov]; simp)
    · intro hcontra
      have hmm := hout _ hcontra rfl
      rw [hse] at hmm
      rcases hov : oldValues[i]? with _ | ov <;> rw [hov] at hmm <;> simp at hmm
  · intro sid hst
    have hse : Rebind.stepEffects oldValues bs i newValues[i] =
        [.warnNotWritable i] := by
      simp [Rebind.stepEffects, hch, hrd, hb, hst]
    refine ⟨hin _ (by rw [hse]; simp), ?_⟩
    intro sid' v hcontra
    have := hout _ hcontra rfl
    rw [hse] at this
    simp at this

/-- The effect list of a completed value-update pass. -/
def Rebind.passEffects (o n : List RValue) (b : Option (List BindingR)) :
    List REffect :=
  match rebindValuePass o n b with
  | .ok r => r.1
  | .error _ => []

/-- Witness for C7: two changed plain values, one over a writable binding
(set + recursive dispose), one over a read-only binding (warning). -/
theorem claim_C7_rebind_plain_value_paths_witness :
    REffect.setStore 0 9 (RValue.plainV 2) ∈
      Rebind.passEffects [RValue.plainV 0, RValue.plainV 1]
        [RValue.plainV 2, RValue.plainV 3]
        (some [⟨SRef.writableS 9, 0⟩, ⟨SRef.readableS 8, 1⟩]) ∧
    REffect.disposeRecOld 0 (RValue.plainV 0) ∈
      Rebind.passEffects [RValue.plainV 0, RValue.plainV 1]
        [RValue.plainV 2, RValue.plainV 3]
        (some [⟨SRef.writableS 9, 0⟩, ⟨SRef.readableS 8, 1⟩]) ∧
    REffect.warnNotWritable 1 ∈
      Rebind.passEffects [RValue.plainV 0, RValue.plainV 1]
        [RValue.plainV 2, RValue.plainV 3]
        (some [⟨SRef.writableS 9, 0⟩, ⟨SRef.readableS 8, 1⟩]) := by
  obtain ⟨r, hr, hp⟩ := claim_C7_rebind_plain_value_paths
    [RValue.plainV 0, RValue.plainV 1] [RValue.plainV 2, RValue.plainV 3]
    [⟨SRef.writableS 9, 0⟩, ⟨SRef.readableS 8, 1⟩] (by decide)
  have h0 := hp 0 (by decide) ⟨SRef.writableS 9, 0⟩ rfl (by decide) rfl
  have h1 := hp 1 (by decide) ⟨SRef.readableS 8, 1⟩ rfl (by decide) rfl
  have hpe : Rebind.passEffects [RValue.plainV 0, RValue.plainV 1]
      [RValue.plainV 2, RValue.plainV 3]
      (some [⟨SRef.writableS 9, 0⟩, ⟨SRef.readableS 8, 1⟩]) = r.1 := by
    simp [Rebind.passEffects, hr]
  refine ⟨?_, ?_, ?_⟩
  · rw [hpe]
    exact (h0.1 9 rfl).1
  · rw [hpe]
    exact (h0.1 9 rfl).2.1 (RValue.plainV 0) rfl
  · rw [hpe]
    exact (h1.2 8 rfl).1

end RebindClaims

section TemplateClaims

open Template

/-- Whether a template value is the store with identity `sid`. -/
def Template.storeHasSid (sid : Nat) : TValue → Bool
  | .store s' => s'.sid == sid
  | _ => false

/-- The first interpolation position holding the store `sid`. -/
def Template.firstStoreIdx (values : List TValue) (sid : Nat) : Option Nat :=
  values.findIdx? (Template.storeHasSid sid)

/-- The `stores`-array entry the `tmpl` loop records at position `i`:
`null` for a repeated store, the store itself for its first occurrence, and a
fresh wrapping writable for a plain value. -/
def Template.entryAt (values : List TValue) (i : Nat) : Option TEntry :=
  match values[i]? with
  | some (TValue.store s) =>
      match Template.firstStoreIdx (values.take i) s.sid with
      | some _ => none
      | none => some (.ref s.sid)
  | some v => some (.wrapped v)
  | none => none

/-- The binding index the placeholder at position `i` references. -/
def Template.keyAt (values : List TValue) (i : Nat) : Nat :=
  match values[i]? with
  | some (TValue.store s) => (Template.firstStoreIdx (values.take i) s.sid).getD i
  | _ => i

theorem find_stores_eq (values : List TValue) (s : StoreV) :
    ∀ n, n ≤ values.length →
      ((List.range n).map (Template.entryAt values)).findIdx?
          (entryIsSameStore (TValue.store s)) =
        Template.firstStoreIdx (values.take n) s.sid := by
  intro n
  induction n with
  | zero => simp [Template.firstStoreIdx]
  | succ n ih =>
      intro hle
      have hn : n < values.length := by omega
      have hv : values[n]? = some values[n] := List.getElem?_eq_getElem hn
      have ihn := ih (by omega)
      rw [List.range_succ, List.map_append, List.findIdx?_append]
      rw [Template.firstStoreIdx, List.take_succ, hv, List.findIdx?_append]
      rw [← Template.firstStoreIdx, ← Template.firstStoreIdx, ihn]
      rcases hfs : Template.firstStoreIdx (values.take n) s.sid with _ | j
      · simp only [Option.none_or]
        have hlen1 : (List.map (Template.entryAt values) (List.range n)).length = n := by
          simp
        have hlen2 : (values.take n).length = n := by
          simp [List.length_take]
          omega
        rw [hlen1, hlen2]
        cases hshape : values[n] with
        | store s' =>
            by_cases hsid : s'.sid = s.sid
            · have hfs' : Template.firstStoreIdx (values.take n) s'.sid = none := by
                rw [hsid]; exact hfs
              have hentry : Template.entryAt values n = some (TEntry.ref s'.sid) := by
                simp [Template.entryAt, hv, hshape, hfs']
              simp [hentry, entryIsSameStore, Template.storeHasSid,
                Template.firstStoreIdx, hshape, hsid,
                List.findIdx?_cons, List.findIdx?_nil]
            · rcases hfs2 : Template.firstStoreIdx (values.take n) s'.sid with _ | j2
              · have hentry : Template.entryAt values n = some (TEntry.ref s'.sid) := by
                  simp [Template.entryAt, hv, hshape, hfs2]
                simp [hentry, entryIsSameStore, Template.storeHasSid,
                  Template.firstStoreIdx, hshape, hsid,
                  List.findIdx?_cons, List.findIdx?_nil, Nat.beq_eq_true_eq]
              · have hentry : Template.entryAt values n = none := by
                  simp [Template.entryAt, hv, hshape, hfs2]
                simp [hentry, entryIsSameStore, Template.storeHasSid,
                  Template.firstStoreIdx, hshape, hsid,
                  List.findIdx?_cons, List.findIdx?_nil]
        | evh p =>
            have hentry : Template.entryAt values n = some (.wrapped (TValue.evh p)) := by
              simp [Template.entryAt, hv, hshape]
            simp [hentry, entryIsSameStore, Template.storeHasSid,
              Template.firstStoreIdx, hshape,
              List.findIdx?_cons, List.findIdx?_nil]
        | cond p =>
            have hentry : Template.entryAt values n = some (.wrapped (TValue.cond p)) := by
              simp [Template.entryAt, hv, hshape]
            simp [hentry, entryIsSameStore, Template.storeHasSid,
              Template.firstStoreIdx, hshape,
              List.findIdx?_cons, List.findIdx?_nil]
        | act p =>
            have hentry : Template.entryAt values n = some (.wrapped (TValue.act p)) := by
              simp [Template.entryAt, hv, hshape]
            simp [hentry, entryIsSameStore, Template.storeHasSid,
              Template.firstStoreIdx, hshape,
              List.findIdx?_cons, List.findIdx?_nil]
        | plain p =>
            have hentry : Template.entryAt values n = some (.wrapped (TValue.plain p)) := by
              simp [Template.entryAt, hv, hshape]
            simp [hentry, entryIsSameStore, Template.storeHasSid,
              Template.firstStoreIdx, hshape,
              List.findIdx?_cons, List.findIdx?_nil]
      · simp [Option.or_some]

theorem tmplRun_char (values : List TValue) : ∀ (strings : List String),
    (tmplRun strings values).stores =
      (List.range (min strings.length values.length)).map (Template.entryAt values) ∧
    (tmplRun strings values).keys =
      (List.range (min strings.length values.length)).map (Template.keyAt values) := by
  intro strings
  induction strings using List.reverseRecOn with
  | nil => simp [tmplRun]
  | append_singleton l a ih =>
      have hsplit : tmplRun (l ++ [a]) values =
          tmplStep values (tmplRun l values) l.length a := by
        show ((l ++ [a]).enum.foldl (fun st p => tmplStep values st p.1 p.2) ⟨"", [], []⟩) = _
        have henum : (l ++ [a]).enum = l.enum ++ [(l.length, a)] := by
          simp [List.enum, List.enumFrom_append]
        rw [henum, List.foldl_append]
        rfl
      rw [hsplit]
      by_cases h : values.length ≤ l.length
      · have hnone : values[l.length]? = none := List.getElem?_eq_none h
        have hmin1 : min (l ++ [a]).length values.length = min l.length values.length := by
          simp only [List.length_append, List.length_singleton]
          omega
        rw [hmin1]
        refine ⟨?_, ?_⟩
        · rw [← ih.1]
          simp [tmplStep, hnone]
        · rw [← ih.2]
          simp [tmplStep, hnone]
      · have hlt : l.length < values.length := Nat.lt_of_not_le h
        have hv : values[l.length]? = some values[l.length] := List.getElem?_eq_getElem hlt
        have hmin1 : min (l ++ [a]).length values.length = l.length + 1 := by
          simp only [List.length_append, List.length_singleton]
          omega
        have hmin0 : min l.length values.length = l.length := by omega
        rw [hmin1, List.range_succ, List.map_append, List.map_append]
        have ihs := ih.1
        have ihk := ih.2
        rw [hmin0] at ihs ihk
        cases hshape : values[l.length] with
        | store s =>
            have hfind := find_stores_eq values s l.length (Nat.le_of_lt hlt)
            have hentry : Template.entryAt values l.length =
                match Template.firstStoreIdx (values.take l.length) s.sid with
                | some _ => none
                | none => some (TEntry.ref s.sid) := by
              simp [Template.entryAt, hv, hshape]
            have hkey : Template.keyAt values l.length =
                (Template.firstStoreIdx (values.take l.length) s.sid).getD l.length := by
              simp [Template.keyAt, hv, hshape]
            rcases hfs : Template.firstStoreIdx (values.take l.length) s.sid with _ | j
            · rw [hfs] at hentry hkey
              refine ⟨?_, ?_⟩
              · simp only [tmplStep, hv, hshape, isReadableV]
                rw [ihs, hfind, hfs]
                simp [hentry]
              · simp only [tmplStep, hv, hshape, isReadableV]
                rw [ihs, hfind, hfs]
                simp [ihk, hkey]
            · rw [hfs] at hentry hkey
              refine ⟨?_, ?_⟩
              · simp only [tmplStep, hv, hshape, isReadableV]
                rw [ihs, hfind, hfs]
                simp [hentry]
              · simp only [tmplStep, hv, hshape, isReadableV]
                rw [ihs, hfind, hfs]
                simp [ihk, hkey]
        | evh p =>
            refine ⟨?_, ?_⟩ <;> simp only [tmplStep, hv, hshape, isReadableV] <;>
              simp [ihs, ihk, Template.entryAt, Template.keyAt, hv, hshape]
        | cond p =>
            refine ⟨?_, ?_⟩ <;> simp only [tmplStep, hv, hshape, isReadableV] <;>
              simp [ihs, ihk, Template.entryAt, Template.keyAt, hv, hshape]
        | act p =>
            refine ⟨?_, ?_⟩ <;> simp only [tmplStep, hv, hshape, isReadableV] <;>
              simp [ihs, ihk, Template.entryAt, Template.keyAt, hv, hshape]
        | plain p =>
            refine ⟨?_, ?_⟩ <;> simp only [tmplStep, hv, hshape, isReadableV] <;>
              simp [ihs, ihk, Template.entryAt, Template.keyAt, hv, hshape]

theorem table_countP (t : TEntry) :
    ∀ (l : List (Option TEntry)) (n : Nat),
      ((List.enumFrom n l).filterMap (fun q => q.2.map (fun
          e => (q.1, e)))).countP (fun kv => kv.2 == t) =
        l.countP (fun o => o == some t) := by
  intro l
  induction l with
  | nil => intro n; simp
  | cons o rest ih =>
      intro n
      rw [List.enumFrom_cons]
      cases o with
      | none => simp [List.filterMap_cons, List.countP_cons, ih (n + 1)]
      | some e => simp [List.filterMap_cons, List.countP_cons, ih (n + 1)]

theorem table_mem :
    ∀ (l : List (Option TEntry)) (n p : Nat) (e : TEntry),
      ((p, e) ∈ (List.enumFrom n l).filterMap (fun q => q.2.map (fun
          e => (q.1, e)))) ↔
        (n ≤ p ∧ l[p - n]? = some (some e)) := by
  intro l
  induction l with
  | nil => intro n p e; simp
  | cons o rest ih =>
      intro n p e
      rw [List.enumFrom_cons]
      cases o with
      | none =>
          rw [List.filterMap_cons]
          simp only [Option.map_none']
          rw [ih (n + 1) p e]
          constructor
          · rintro ⟨h1, h2⟩
            refine ⟨by omega, ?_⟩
            rw [show p - n = (p - (n + 1)) + 1 by omega, List.getElem?_cons_succ]
            exact h2
          · rintro ⟨h1, h2⟩
            rcases Nat.eq_or_lt_of_le h1 with heq | hlt2
            · rw [← heq, Nat.sub_self, List.getElem?_cons_zero] at h2
              exact Option.noConfusion (Option.some.inj h2)
            · refine ⟨by omega, ?_⟩
              rw [show p - n = (p - (n + 1)) + 1 by omega, List.getElem?_cons_succ] at h2
              exact h2
      | some e0 =>
          rw [List.filterMap_cons]
          simp only [Option.map_some']
          rw [List.mem_cons, ih (n + 1) p e]
          constructor
          · rintro (heq | ⟨h1, h2⟩)
            · have hp : p = n ∧ e = e0 := by
                constructor <;> [exact congrArg Prod.fst heq; exact congrArg Prod.snd heq]
              obtain ⟨rfl, rfl⟩ := hp
              refine ⟨Nat.le_refl _, ?_⟩
              rw [Nat.sub_self, List.getElem?_cons_zero]
            · refine ⟨by omega, ?_⟩
              rw [show p - n = (p - (n + 1)) + 1 by omega, List.getElem?_cons_succ]
              exact h2
          · rintro ⟨h1, h2⟩
            rcases Nat.eq_or_lt_of_le h1 with heq | hlt2
            · left
              rw [← heq, Nat.sub_self, List.getElem?_cons_zero] at h2
              have := Option.some.inj h2
              rw [← heq, Option.some.inj this]
            · right
              refine ⟨by omega, ?_⟩
              rw [show p - n = (p - (n + 1)) + 1 by omega, List.getElem?_cons_succ] at h2
              exact h2

theorem firstStoreIdx_take_findIdx (values : List TValue) (sid : Nat) :
    Template.firstStoreIdx
      (values.take (values.findIdx (Template.storeHasSid sid))) sid = none := by
  rw [Template.firstStoreIdx, List.findIdx?_eq_none_iff]
  intro x hx
  obtain ⟨r, hr, hxe⟩ := List.mem_iff_getElem.mp hx
  have hrlt : r < values.findIdx (Template.storeHasSid sid) := by
    have h2 := hr
    simp only [List.length_take] at h2
    omega
  rw [← hxe, List.getElem_take]
  exact List.not_of_lt_findIdx hrlt

theorem entry_ref_iff (values : List TValue) (s : StoreV)
    (hex : ∃ x ∈ values, Template.storeHasSid s.sid x) :
    ∀ q, q < values.length →
      ((Template.entryAt values q = some (TEntry.ref s.sid)) ↔
        q = values.findIdx (Template.storeHasSid s.sid)) := by
  have hi0lt : values.findIdx (Template.storeHasSid s.sid) < values.length :=
    List.findIdx_lt_length_of_exists hex
  have hi0p : Template.storeHasSid s.sid values[values.findIdx
      (Template.storeHasSid s.sid)] = true := List.findIdx_getElem
  intro q hq
  have hv : values[q]? = some values[q] := List.getElem?_eq_getElem hq
  constructor
  · intro hent
    cases hsq : values[q] with
    | store s' =>
        simp only [Template.entryAt, hv, hsq] at hent
        rcases hfq : Template.firstStoreIdx (values.take q) s'.sid with _ | w
        · simp only [hfq] at hent
          have hsideq : s'.sid = s.sid := TEntry.ref.inj (Option.some.inj hent)
          have hqp : Template.storeHasSid s.sid values[q] = true := by
            rw [hsq]
            simp [Template.storeHasSid, hsideq]
          have hge : values.findIdx (Template.storeHasSid s.sid) ≤ q := by
            by_contra hcon
            have hfalse := List.not_of_lt_findIdx (Nat.lt_of_not_le hcon)
            rw [hfalse] at hqp
            exact Bool.noConfusion hqp
          rcases Nat.eq_or_lt_of_le hge with heq | hlt
          · exact heq.symm
          · exfalso
            rw [hsideq] at hfq
            rw [Template.firstStoreIdx, List.findIdx?_eq_none_iff] at hfq
            have htl : values.findIdx (Template.storeHasSid s.sid) <
                (values.take q).length := by
              simp only [List.length_take]
              omega
            have hmem := List.getElem_mem htl
            have hfalse := hfq _ hmem
            rw [List.getElem_take] at hfalse
            rw [hfalse] at hi0p
            exact Bool.noConfusion hi0p
        · simp only [hfq] at hent
          exact Option.noConfusion hent
    | evh p =>
        simp only [Template.entryAt, hv, hsq] at hent
        exact TEntry.noConfusion (Option.some.inj hent)
    | cond p =>
        simp only [Template.entryAt, hv, hsq] at hent
        exact TEntry.noConfusion (Option.some.inj hent)
    | act p =>
        simp only [Template.entryAt, hv, hsq] at hent
        exact TEntry.noConfusion (Option.some.inj hent)
    | plain p =>
        simp only [Template.entryAt, hv, hsq] at hent
        exact TEntry.noConfusion (Option.some.inj hent)
  · intro heq
    subst heq
    cases hs0 : values[values.findIdx (Template.storeHasSid s.sid)] with
    | store s'' =>
        have hsideq : s''.sid = s.sid := by
          rw [hs0] at hi0p
          simpa [Template.storeHasSid] using hi0p
        have hnone : Template.firstStoreIdx
            (values.take (values.findIdx (Template.storeHasSid s.sid))) s''.sid
              = none := by
          rw [hsideq]
          exact firstStoreIdx_take_findIdx values s.sid
        simp only [Template.entryAt, hv, hs0, hsideq,
          firstStoreIdx_take_findIdx values s.sid]
    | evh p => rw [hs0] at hi0p; exact Bool.noConfusion hi0p
    | cond p => rw [hs0] at hi0p; exact Bool.noConfusion hi0p
    | act p => rw [hs0] at hi0p; exact Bool.noConfusion hi0p
    | plain p => rw [hs0] at hi0p; exact Bool.noConfusion hi0p

theorem key_at_occurrence (values : List TValue) (s : StoreV)
    (hex : ∃ x ∈ values, Template.storeHasSid s.sid x) :
    ∀ q s', q < values.length → values[q]? = some (TValue.store s') →
      s'.sid = s.sid →
      Template.keyAt values q = values.findIdx (Template.storeHasSid s.sid) := by
  have hi0lt : values.findIdx (Template.storeHasSid s.sid) < values.length :=
    List.findIdx_lt_length_of_exists hex
  have hi0p : Template.storeHasSid s.sid values[values.findIdx
      (Template.storeHasSid s.sid)] = true := List.findIdx_getElem
  intro q s' hq hvq hsideq
  have hvg : values[q] = TValue.store s' := by
    have h2 := List.getElem?_eq_getElem hq
    rw [hvq] at h2
    exact (Option.some.inj h2).symm
  have hqp : Template.storeHasSid s.sid values[q] = true := by
    rw [hvg]
    simp [Template.storeHasSid, hsideq]
  have hge : values.findIdx (Template.storeHasSid s.sid) ≤ q := by
    by_contra hcon
    have hfalse := List.not_of_lt_findIdx (Nat.lt_of_not_le hcon)
    rw [hfalse] at hqp
    exact Bool.noConfusion hqp
  simp only [Template.keyAt, hvq, hsideq]
  rcases Nat.eq_or_lt_of_le hge with heq | hlt
  · subst heq
    rw [firstStoreIdx_take_findIdx values s.sid]
    rfl
  · have hexq : ∃ x ∈ values.take q, Template.storeHasSid s.sid x := by
      have htl : values.findIdx (Template.storeHasSid s.sid) <
          (values.take q).length := by
        simp only [List.length_take]
        omega
      have hmem2 := List.getElem_mem htl
      rw [List.getElem_take] at hmem2
      exact ⟨values[values.findIdx (Template.storeHasSid s.sid)], hmem2, hi0p⟩
    have hfq := List.findIdx?_eq_some_of_exists hexq
    have hrlt : (values.take q).findIdx (Template.storeHasSid s.sid) <
        (values.take q).length := List.findIdx_lt_length_of_exists hexq
    have hrp : Template.storeHasSid s.sid
        ((values.take q)[(values.take q).findIdx (Template.storeHasSid s.sid)])
          = true := List.findIdx_getElem
    have hrbound : (values.take q).findIdx (Template.storeHasSid s.sid) <
        values.length := by
      have h3 := hrlt
      simp only [List.length_take] at h3
      omega
    have hrval : Template.storeHasSid s.sid
        values[(values.take q).findIdx (Template.storeHasSid s.sid)] = true := by
      have h2 := hrp
      rw [List.getElem_take] at h2
      exact h2
    have hrge : values.findIdx (Template.storeHasSid s.sid) ≤
        (values.take q).findIdx (Template.storeHasSid s.sid) := by
      by_contra hcon
      have hfalse := List.not_of_lt_findIdx (Nat.lt_of_not_le hcon)
      rw [hfalse] at hrval
      exact Bool.noConfusion hrval
    have hrle : (values.take q).findIdx (Template.storeHasSid s.sid) ≤
        values.findIdx (Template.storeHasSid s.sid) := by
      by_contra hcon
      have hlt2 := Nat.lt_of_not_le hcon
      have hfalse := List.not_of_lt_findIdx hlt2
      rw [List.getElem_take] at hfalse
      rw [hfalse] at hi0p
      exact Bool.noConfusion hi0p
    have hreq : (values.take q).findIdx (Template.storeHasSid s.sid) =
        values.findIdx (Template.storeHasSid s.sid) := Nat.le_antisymm hrle hrge
    rw [Template.firstStoreIdx, hfq, hreq]
    rfl

theorem tmpl_snd (strings : List String) (values : List TValue) :
    (tmpl strings values).2 = (tmplRun strings values).stores.enum.filterMap
      (fun q => q.2.map (fun e => (q.1, e))) := rfl

theorem enum_eq_enumFrom (l : List (Option TEntry)) : l.enum = List.enumFrom 0 l := rfl

/-- Claim C2: compiling a template in which the same store instance occurs at
two interpolation positions yields exactly one store-table entry for that
store, referenced by reference (never re-wrapped), and the placeholders at
both positions carry that single entry's key; moreover every position holding
a store maps, if it owns a table entry at all, to that store by reference. -/
theorem claim_C2_tmpl_store_dedup (strings : List String) (values : List TValue)
    (s : StoreV) (i j : Nat) (hlen : strings.length = values.length + 1)
    (hij : i < j)
    (hvi : values[i]? = some (TValue.store s))
    (hvj : values[j]? = some (TValue.store s)) :
    (∃ k,
      ((tmpl strings values).2.countP (fun kv => kv.2 == TEntry.ref s.sid)) = 1 ∧
      (k, TEntry.ref s.sid) ∈ (tmpl strings values).2 ∧
      (tmplKeys strings values)[i]? = some k ∧
      (tmplKeys strings values)[j]? = some k) ∧
    (∀ p e s', values[p]? = some (TValue.store s') →
      (p, e) ∈ (tmpl strings values).2 → e = TEntry.ref s'.sid) := by
  have hj : j < values.length := by
    by_contra hcon
    rw [List.getElem?_eq_none (Nat.le_of_not_lt hcon)] at hvj
    exact Option.noConfusion hvj
  have hi : i < values.length := Nat.lt_trans hij hj
  have hmin : min strings.length values.length = values.length := by omega
  have hchar := tmplRun_char values strings
  rw [hmin] at hchar
  obtain ⟨hcs, hck⟩ := hchar
  have hvival : values[i] = TValue.store s := by
    have h2 := List.getElem?_eq_getElem hi
    rw [hvi] at h2
    exact (Option.some.inj h2).symm
  have hex : ∃ x ∈ values, Template.storeHasSid s.sid x := by
    refine ⟨values[i], List.getElem_mem hi, ?_⟩
    rw [hvival]
    simp [Template.storeHasSid]
  have hi0lt : values.findIdx (Template.storeHasSid s.sid) < values.length :=
    List.findIdx_lt_length_of_exists hex
  have htab : (tmpl strings values).2 =
      (List.enumFrom 0 ((List.range values.length).map
        (Template.entryAt values))).filterMap
          (fun q => q.2.map (fun e => (q.1, e))) := by
    rw [tmpl_snd, hcs, enum_eq_enumFrom]
  constructor
  · refine ⟨values.findIdx (Template.storeHasSid s.sid), ?_, ?_, ?_, ?_⟩
    · rw [htab, table_countP, List.countP_map]
      have hcongr : ∀ x ∈ List.range values.length,
          (((fun o => o == some (TEntry.ref s.sid)) ∘ Template.entryAt values) x
            = true) ↔
          ((x == values.findIdx (Template.storeHasSid s.sid)) = true) := by
        intro x hx
        rw [List.mem_range] at hx
        simp only [Function.comp_apply, beq_iff_eq]
        exact entry_ref_iff values s hex x hx
      rw [List.countP_congr hcongr, ← List.count_eq_countP]
      exact List.count_eq_one_of_mem (List.nodup_range values.length)
        (List.mem_range.mpr hi0lt)
    · rw [htab]
      refine (table_mem _ 0 _ _).mpr ⟨Nat.zero_le _, ?_⟩
      rw [Nat.sub_zero, List.getElem?_map, List.getElem?_range hi0lt]
      have hent := (entry_ref_iff values s hex _ hi0lt).mpr rfl
      rw [Option.map_some', hent]
    · show ((tmplRun strings values).keys)[i]? = _
      rw [hck, List.getElem?_map, List.getElem?_range hi, Option.map_some']
      rw [key_at_occurrence values s hex i s hi hvi rfl]
    · show ((tmplRun strings values).keys)[j]? = _
      rw [hck, List.getElem?_map, List.getElem?_range hj, Option.map_some']
      rw [key_at_occurrence values s hex j s hj hvj rfl]
  · intro p e s' hvp hmem
    rw [htab] at hmem
    obtain ⟨-, h2⟩ := (table_mem _ 0 _ _).mp hmem
    rw [Nat.sub_zero, List.getElem?_map] at h2
    have hp : p < values.length := by
      by_contra hcon
      rw [List.getElem?_eq_none (by simpa using Nat.le_of_not_lt hcon),
        Option.map_none'] at h2
      exact Option.noConfusion h2
    rw [List.getElem?_range hp, Option.map_some'] at h2
    have hent : Template.entryAt values p = some e := Option.some.inj h2
    simp only [Template.entryAt, hvp] at hent
    rcases hfp : Template.firstStoreIdx (values.take p) s'.sid with _ | w
    · simp only [hfp] at hent
      exact (Option.some.inj hent).symm
    · simp only [hfp] at hent
      exact Option.noConfusion hent

/-- Witness for C2: the store with identity 5 interpolated at positions 0 and
1 of a three-chunk template. -/
theorem claim_C2_tmpl_store_dedup_witness :
    ((tmpl ["<a>", "</a><b>", "</b>"]
        [TValue.store ⟨5, false⟩, TValue.store ⟨5, false⟩]).2.countP
      (fun kv => kv.2 == TEntry.ref 5)) = 1 ∧
    (tmplKeys ["<a>", "</a><b>", "</b>"]
        [TValue.store ⟨5, false⟩, TValue.store ⟨5, false⟩])[0]? =
      (tmplKeys ["<a>", "</a><b>", "</b>"]
        [TValue.store ⟨5, false⟩, TValue.store ⟨5, false⟩])[1]? := by
  obtain ⟨⟨k, hcount, hmem, hk0, hk1⟩, hall⟩ :=
    claim_C2_tmpl_store_dedup ["<a>", "</a><b>", "</b>"]
      [TValue.store ⟨5, false⟩, TValue.store ⟨5, false⟩] ⟨5, false⟩ 0 1
      (by decide) (by decide) (by decide) (by decide)
  exact ⟨hcount, by rw [hk0, hk1]⟩

end TemplateClaims

section DiffingClaims

open Diffing

theorem jsStart_le (start : Int) (len : Nat) : jsStart start len ≤ len := by
  unfold jsStart
  split
  · omega
  · exact Nat.min_le_right _ _

theorem jsStart_nonneg_eq (i : Int) (len : Nat) (h0 : 0 ≤ i) (h1 : i < (len : Int)) :
    jsStart i len = i.toNat := by
  unfold jsStart
  split
  · omega
  · simp only [Nat.min_def]
    split <;> omega

theorem jsStart_lt (i : Int) (len : Nat) (h1 : -1 ≤ i) (h2 : i < (len : Int))
    (h3 : 0 < len) : jsStart i len < len := by
  unfold jsStart
  split
  · omega
  · simp only [Nat.min_def]
    split <;> omega

theorem spliceInsert_length (l : List T) (i : Int) (x : T) :
    (spliceInsert l i x).length = l.length + 1 := by
  unfold spliceInsert
  have h := jsStart_le i l.length
  simp only [List.length_append, List.length_take, List.length_cons, List.length_drop]
  omega

theorem spliceRemove1_length_of_lt (l : List T) (i : Int)
    (h : jsStart i l.length < l.length) :
    (spliceRemove1 l i).length = l.length - 1 := by
  unfold spliceRemove1
  simp only [List.length_append, List.length_take, List.length_drop]
  omega

theorem mem_spliceRemove1 (l : List T) (i : Int) (x : T)
    (h : x ∈ spliceRemove1 l i) : x ∈ l := by
  unfold spliceRemove1 at h
  rcases List.mem_append.mp h with h | h
  · exact List.mem_of_mem_take h
  · exact List.mem_of_mem_drop h

theorem mem_spliceInsert (l : List T) (i : Int) (y x : T)
    (h : x ∈ spliceInsert l i y) : x = y ∨ x ∈ l := by
  unfold spliceInsert at h
  rcases List.mem_append.mp h with h | h
  · exact Or.inr (List.mem_of_mem_take h)
  · rcases List.mem_cons.mp h with h | h
    · exact Or.inl h
    · exact Or.inr (List.mem_of_mem_drop h)

theorem mem_applyOp (l : List T) (op : Op T) (x : T) (h : x ∈ applyOp l op) :
    x ∈ l ∨ x = op.item := by
  unfold applyOp at h
  split at h
  · exact Or.inl (mem_spliceRemove1 _ _ _ h)
  · rcases mem_spliceInsert _ _ _ _ h with h | h
    · exact Or.inr h
    · exact Or.inl h
  · rcases mem_spliceInsert _ _ _ _ h with h | h
    · exact Or.inr h
    · exact Or.inl (mem_spliceRemove1 _ _ _ h)

theorem mem_applyOps (x : T) : ∀ (ops : List (Op T)) (l : List T),
    x ∈ applyOps l ops → x ∈ l ∨ ∃ op ∈ ops, x = op.item := by
  intro ops
  induction ops with
  | nil => intro l h; exact Or.inl h
  | cons op rest ih =>
      intro l h
      rw [applyOps, List.foldl_cons, ← applyOps] at h
      rcases ih (applyOp l op) h with h2 | ⟨op2, hop2, hx⟩
      · rcases mem_applyOp l op x h2 with h3 | h3
        · exact Or.inl h3
        · exact Or.inr ⟨op, List.mem_cons_self op rest, h3⟩
      · exact Or.inr ⟨op2, List.mem_cons_of_mem op hop2, hx⟩

theorem applyOps_append (l : List T) (ops1 ops2 : List (Op T)) :
    applyOps l (ops1 ++ ops2) = applyOps (applyOps l ops1) ops2 :=
  List.foldl_append _ _ _ _

theorem applyOps_adds_length : ∀ (ops : List (Op T)) (l : List T),
    (∀ op ∈ ops, op.type = OpType.ADD) →
    (applyOps l ops).length = l.length + ops.length := by
  intro ops
  induction ops with
  | nil => intro l _; rfl
  | cons op rest ih =>
      intro l hall
      rw [applyOps, List.foldl_cons, ← applyOps]
      rw [ih (applyOp l op) (fun o ho => hall o (List.mem_cons_of_mem op ho))]
      have hop : op.type = OpType.ADD := hall op (List.mem_cons_self op rest)
      unfold applyOp
      rw [hop]
      rw [spliceInsert_length]
      simp only [List.length_cons]
      omega

theorem filter_partition_length (l : List T) (p : T → Bool) :
    (l.filter p).length + (l.filter (fun x => !(p x))).length = l.length := by
  induction l with
  | nil => rfl
  | cons a t ih =>
      by_cases h : p a <;> simp [List.filter_cons, h] <;> omega

/-- The DEL operation the deletion scan emits for index `i`, if any. -/
def delOpAt (key : T → String) (B A : List T) (i : Nat) : Option (Op T) :=
  match A[i]? with
  | some item =>
      if !(includesk key B item) then some ⟨OpType.DEL, item, (i : Int), none⟩
      else none
  | none => none

theorem deletions_eq (key : T → String) (B A : List T) :
    deletions key B A = (List.range A.length).reverse.filterMap (delOpAt key B A) :=
  rfl

/-- Shape of the deletion scan output: a list of DELs with strictly decreasing indices, starting below
`n`: the shape of the deletion scan's output. -/
def decDels : List (Op T) → Nat → Prop
  | [], _ => True
  | op :: rest, n =>
      op.type = OpType.DEL ∧ 0 ≤ op.index ∧ op.index < (n : Int) ∧
        decDels rest op.index.toNat

theorem decDels_mono : ∀ (ops : List (Op T)) (n m : Nat),
    decDels ops n → n ≤ m → decDels ops m := by
  intro ops n m h hle
  cases ops with
  | nil => trivial
  | cons op rest =>
      obtain ⟨h1, h2, h3, h4⟩ := h
      exact ⟨h1, h2, by omega, h4⟩

theorem decDels_delsUpTo (key : T → String) (B A : List T) :
    ∀ k, decDels ((List.range k).reverse.filterMap (delOpAt key B A)) k := by
  intro k
  induction k with
  | zero => trivial
  | succ k ih =>
      rw [List.range_succ, List.reverse_append]
      simp only [List.reverse_singleton, List.singleton_append, List.filterMap_cons]
      rcases hA : A[k]? with _ | item
      · have hop : delOpAt key B A k = none := by
          unfold delOpAt
          rw [hA]
        rw [hop]
        exact decDels_mono _ k (k + 1) ih (Nat.le_succ k)
      · by_cases hinc : includesk key B item
        · have hop : delOpAt key B A k = none := by
            unfold delOpAt
            rw [hA]
            simp [hinc]
          rw [hop]
          exact decDels_mono _ k (k + 1) ih (Nat.le_succ k)
        · have hop : delOpAt key B A k =
              some ⟨OpType.DEL, item, (k : Int), none⟩ := by
            unfold delOpAt
            rw [hA]
            simp [hinc]
          rw [hop]
          refine ⟨rfl, ?_, ?_, ?_⟩
          · show (0 : Int) ≤ ((k : Nat) : Int)
            omega
          · show ((k : Nat) : Int) < (((k + 1 : Nat) : Nat) : Int)
            omega
          · show decDels ((List.range k).reverse.filterMap (delOpAt key B A))
              (((k : Nat) : Int)).toNat
            simpa using ih

theorem decDels_deletions (key : T → String) (B A : List T) :
    decDels (deletions key B A) A.length := by
  rw [deletions_eq]
  exact decDels_delsUpTo key B A A.length

theorem applyOps_cons (l : List T) (op : Op T) (ops : List (Op T)) :
    applyOps l (op :: ops) = applyOps (applyOp l op) ops := rfl

theorem applyOps_dels_append (x : T) : ∀ (ops : List (Op T)) (l : List T),
    decDels ops l.length → applyOps (l ++ [x]) ops = applyOps l ops ++ [x] := by
  intro ops
  induction ops with
  | nil => intro l _; rfl
  | cons op rest ih =>
      intro l h
      obtain ⟨htype, h0, hlt, hrest⟩ := h
      rw [applyOps_cons, applyOps_cons]
      have htoNat : op.index.toNat < l.length := by omega
      have happ : applyOp (l ++ [x]) op = applyOp l op ++ [x] := by
        have hj1 : jsStart op.index (l ++ [x]).length = op.index.toNat := by
          apply jsStart_nonneg_eq _ _ h0
          simp only [List.length_append, List.length_singleton]
          omega
        have hj2 : jsStart op.index l.length = op.index.toNat := by
          apply jsStart_nonneg_eq _ _ h0
          omega
        simp only [applyOp, htype, spliceRemove1, hj1, hj2]
        rw [List.take_append_of_le_length (by omega)]
        rw [List.drop_append_of_le_length (by omega)]
        rw [List.append_assoc]
      rw [happ]
      have hlen : (applyOp l op).length = l.length - 1 := by
        simp only [applyOp, htype]
        apply spliceRemove1_length_of_lt
        rw [jsStart_nonneg_eq _ _ h0 (by omega)]
        exact htoNat
      have hrest' : decDels rest (applyOp l op).length := by
        rw [hlen]
        exact decDels_mono _ _ _ hrest (by omega)
      exact ih (applyOp l op) hrest'

theorem applyOps_deletions (key : T → String) (B : List T) :
    ∀ A : List T, applyOps A (deletions key B A) =
      A.filter (fun a => includesk key B a) := by
  intro A
  induction A using List.reverseRecOn with
  | nil => rfl
  | append_singleton l x ih =>
      have hx : (l ++ [x])[l.length]? = some x := List.getElem?_concat_length l x
      have htail : (List.range l.length).reverse.filterMap
            (delOpAt key B (l ++ [x])) =
          (List.range l.length).reverse.filterMap (delOpAt key B l) := by
        apply List.filterMap_congr
        intro i hi
        have hilt : i < l.length := by
          rw [List.mem_reverse, List.mem_range] at hi
          exact hi
        unfold delOpAt
        rw [List.getElem?_append]
        simp [hilt]
      have hdec : deletions key B (l ++ [x]) =
          (List.range (l.length + 1)).reverse.filterMap (delOpAt key B (l ++ [x])) := by
        rw [deletions_eq]
        simp
      by_cases hinc : includesk key B x
      · have hhead : delOpAt key B (l ++ [x]) l.length = none := by
          unfold delOpAt
          rw [hx]
          simp [hinc]
        rw [hdec, List.range_succ, List.reverse_append]
        simp only [List.reverse_singleton, List.singleton_append, List.filterMap_cons]
        rw [hhead, htail]
        rw [applyOps_dels_append x _ l (by
          have h2 := decDels_deletions key B l
          rw [deletions_eq] at h2
          exact h2)]
        rw [← deletions_eq, ih]
        simp [List.filter_append, hinc]
      · have hhead : delOpAt key B (l ++ [x]) l.length =
            some ⟨OpType.DEL, x, (l.length : Int), none⟩ := by
          unfold delOpAt
          rw [hx]
          simp [hinc]
        rw [hdec, List.range_succ, List.reverse_append]
        simp only [List.reverse_singleton, List.singleton_append, List.filterMap_cons]
        rw [hhead, htail]
        rw [applyOps_cons]
        have hdel : applyOp (l ++ [x]) ⟨OpType.DEL, x, (l.length : Int), none⟩ = l := by
          have hj : jsStart (l.length : Int) (l ++ [x]).length = l.length := by
            apply jsStart_nonneg_eq _ _ (by omega)
            simp only [List.length_append, List.length_singleton]
            omega
          simp only [applyOp, spliceRemove1, hj]
          rw [List.take_left]
          rw [List.drop_eq_nil_of_le (by
            simp only [List.length_append, List.length_singleton]
            omega)]
          simp
        rw [hdel, ← deletions_eq, ih]
        simp [List.filter_append, hinc]

/-- The ADD operation the addition scan emits for index `i`, if any. -/
def addOpAt (key : T → String) (A B : List T) (i : Nat) : Option (Op T) :=
  match B[i]? with
  | some item =>
      if !(includesk key A item) then some ⟨OpType.ADD, item, (i : Int), none⟩
      else none
  | none => none

theorem additions_eq (key : T → String) (A B : List T) :
    additions key A B = (List.range B.length).filterMap (addOpAt key A B) :=
  rfl

theorem additions_shape (key : T → String) (A B : List T) :
    ∀ op ∈ additions key A B, op.type = OpType.ADD ∧ op.item ∈ B := by
  intro op hop
  rw [additions_eq] at hop
  obtain ⟨i, _, hi2⟩ := List.mem_filterMap.mp hop
  unfold addOpAt at hi2
  rcases hB : B[i]? with _ | item
  · rw [hB] at hi2
    exact Option.noConfusion hi2
  · rw [hB] at hi2
    by_cases hinc : includesk key A item
    · simp [hinc] at hi2
    · simp [hinc] at hi2
      rw [← hi2]
      exact ⟨rfl, List.getElem?_mem hB⟩

theorem additions_length (key : T → String) (A : List T) :
    ∀ B : List T, (additions key A B).length =
      (B.filter (fun b => !(includesk key A b))).length := by
  intro B
  induction B using List.reverseRecOn with
  | nil => rfl
  | append_singleton l x ih =>
      have hx : (l ++ [x])[l.length]? = some x := List.getElem?_concat_length l x
      have htail : (List.range l.length).filterMap (addOpAt key A (l ++ [x])) =
          (List.range l.length).filterMap (addOpAt key A l) := by
        apply List.filterMap_congr
        intro i hi
        have hilt : i < l.length := List.mem_range.mp hi
        unfold addOpAt
        rw [List.getElem?_append]
        simp [hilt]
      rw [additions_eq]
      simp only [List.length_append, List.length_singleton, List.range_succ,
        List.filterMap_append, htail]
      rw [← additions_eq, List.filter_append]
      simp only [List.length_append]
      rw [ih]
      have hhead : (List.filterMap (addOpAt key A (l ++ [x])) [l.length]).length =
          (List.filter (fun b => !(includesk key A b)) [x]).length := by
        simp only [List.filterMap_cons, List.filterMap_nil, List.filter_cons,
          List.filter_nil]
        unfold addOpAt
        rw [hx]
        by_cases hinc : includesk key A x <;> simp [hinc]
      omega

theorem includesk_iff_mem_map (key : T → String) (arr : List T) (x : T) :
    includesk key arr x = true ↔ key x ∈ arr.map key := by
  unfold includesk eqk
  rw [List.any_eq_true]
  constructor
  · rintro ⟨it, hit, hbeq⟩
    exact List.mem_map.mpr ⟨it, hit, by simpa using hbeq⟩
  · intro hmem
    obtain ⟨a, ha, hk⟩ := List.mem_map.mp hmem
    exact ⟨a, ha, by simp [hk]⟩

theorem includesk_self (key : T → String) (arr : List T) (x : T) (h : x ∈ arr) :
    includesk key arr x = true := by
  unfold includesk eqk
  rw [List.any_eq_true]
  exact ⟨x, h, by simp⟩

theorem nodup_filter_mem_comm (ka kb : List String)
    (h1 : ka.Nodup) (h2 : kb.Nodup) :
    (ka.filter (fun x => decide (x ∈ kb))).length =
      (kb.filter (fun x => decide (x ∈ ka))).length := by
  have e1 : (ka.filter (fun x => decide (x ∈ kb))).toFinset =
      ka.toFinset ∩ kb.toFinset := by
    ext x
    simp [List.mem_filter]
  have e2 : (kb.filter (fun x => decide (x ∈ ka))).toFinset =
      kb.toFinset ∩ ka.toFinset := by
    ext x
    simp [List.mem_filter]
  have n1 : (ka.filter (fun x => decide (x ∈ kb))).Nodup := h1.filter _
  have n2 : (kb.filter (fun x => decide (x ∈ ka))).Nodup := h2.filter _
  rw [← List.toFinset_card_of_nodup n1, ← List.toFinset_card_of_nodup n2, e1, e2,
    Finset.inter_comm]

theorem cross_count (key : T → String) (A B : List T)
    (hA : (A.map key).Nodup) (hB : (B.map key).Nodup) :
    (A.filter (fun a => includesk key B a)).length =
      (B.filter (fun b => includesk key A b)).length := by
  have h1 : ∀ (X Y : List T),
      (X.filter (fun a => includesk key Y a)).length =
        ((X.map key).filter (fun s => decide (s ∈ Y.map key))).length := by
    intro X Y
    rw [← List.countP_eq_length_filter, ← List.countP_eq_length_filter,
      List.countP_map]
    apply List.countP_congr
    intro x _
    simp only [Function.comp_apply, decide_eq_true_eq]
    exact includesk_iff_mem_map key Y x
  rw [h1, h1]
  exact nodup_filter_mem_comm _ _ hA hB

/-- The invariant the move loop preserves on the working buffer: same length
as the target, every item's key occurs in the target, and every item comes
from the old or the new array. -/
def InvBuf (key : T → String) (A B buffer : List T) : Prop :=
  buffer.length = B.length ∧
  (∀ x ∈ buffer, includesk key B x = true) ∧
  (∀ x ∈ buffer, x ∈ A ∨ x ∈ B)

theorem inv_buffer2 (key : T → String) (A B : List T)
    (hA : (A.map key).Nodup) (hB : (B.map key).Nodup) :
    InvBuf key A B (applyOps (applyOps A (deletions key B A)) (additions key A B)) := by
  rw [applyOps_deletions key B A]
  refine ⟨?_, ?_, ?_⟩
  · rw [applyOps_adds_length _ _ (fun op hop => (additions_shape key A B op hop).1)]
    rw [additions_length]
    have hc := cross_count key A B hA hB
    have hp := filter_partition_length B (fun b => includesk key A b)
    omega
  · intro x hx
    rcases mem_applyOps x _ _ hx with h | ⟨op, hop, hx2⟩
    · exact (List.mem_filter.mp h).2
    · rw [hx2]
      exact includesk_self key B op.item (additions_shape key A B op hop).2
  · intro x hx
    rcases mem_applyOps x _ _ hx with h | ⟨op, hop, hx2⟩
    · exact Or.inl (List.mem_filter.mp h).1
    · rw [hx2]
      exact Or.inr (additions_shape key A B op hop).2

theorem findMoveAux_none (key : T → String) (target : List T) :
    ∀ (l : List T) (i : Nat), findMoveAux key target l i = none →
      ∀ r, ∀ hr : r < l.length, includesk key target l[r] = true →
        eqAt key l[r] target (i + r) = true := by
  intro l
  induction l with
  | nil =>
      intro i _ r hr
      exact absurd hr (by simp)
  | cons x rest ih =>
      intro i hnone r hr hinc
      rw [findMoveAux] at hnone
      split at hnone
      · exact Option.noConfusion hnone
      · rename_i hcond
        cases r with
        | zero =>
            simp only [List.getElem_cons_zero] at hinc ⊢
            rw [Bool.and_eq_true, Bool.not_eq_true'] at hcond
            push_neg at hcond
            have := hcond hinc
            simpa using this
        | succ r =>
            have hr2 : r < rest.length := by
              simp only [List.length_cons] at hr
              omega
            have := ih (i + 1) hnone r hr2 (by
              simpa only [List.getElem_cons_succ] using hinc)
            simp only [List.getElem_cons_succ]
            rw [show i + (r + 1) = (i + 1) + r by omega]
            exact this

theorem findMove_none_char (key : T → String) (curr target : List T)
    (h : findMove key curr target = none) :
    ∀ r, ∀ hr : r < curr.length, includesk key target curr[r] = true →
      eqAt key curr[r] target r = true := by
  intro r hr hinc
  have := findMoveAux_none key target curr 0 h r hr hinc
  simpa using this

theorem findMoveAux_some (key : T → String) (target : List T) :
    ∀ (l : List T) (i : Nat) (mv : Move T),
      findMoveAux key target l i = some mv →
      ∃ r, ∃ hr : r < l.length, mv.item = l[r] ∧ mv.indexSrc = i + r ∧
        includesk key target l[r] = true ∧
        mv.indexDst = indexOfk key target l[r] := by
  intro l
  induction l with
  | nil => intro i mv h; exact Option.noConfusion h
  | cons x rest ih =>
      intro i mv h
      rw [findMoveAux] at h
      split at h
      · rename_i hcond
        rw [Bool.and_eq_true] at hcond
        have hmv := Option.some.inj h
        refine ⟨0, by simp, ?_, ?_, ?_, ?_⟩
        · rw [← hmv]; simp
        · rw [← hmv]; simp
        · simpa using hcond.1
        · rw [← hmv]; simp
      · obtain ⟨r, hr, h1, h2, h3, h4⟩ := ih (i + 1) mv h
        refine ⟨r + 1, by simpa using Nat.succ_lt_succ hr, ?_, ?_, ?_, ?_⟩
        · simpa using h1
        · rw [h2]; omega
        · simpa using h3
        · simpa using h4

theorem findMove_some_char (key : T → String) (curr target : List T) (mv : Move T)
    (h : findMove key curr target = some mv) :
    ∃ hr : mv.indexSrc < curr.length, mv.item = curr[mv.indexSrc] ∧
      includesk key target mv.item = true ∧
      mv.indexDst = indexOfk key target mv.item := by
  obtain ⟨r, hr, h1, h2, h3, h4⟩ := findMoveAux_some key target curr 0 mv h
  have hsrc : mv.indexSrc = r := by omega
  subst hsrc
  exact ⟨hr, h1, by rw [h1]; exact h3, by rw [h1]; exact h4⟩

theorem indexOfk_spec (key : T → String) (arr : List T) (x : T)
    (h : includesk key arr x = true) :
    0 ≤ indexOfk key arr x ∧ indexOfk key arr x < (arr.length : Int) := by
  unfold includesk at h
  rw [List.any_eq_true] at h
  have hfind := List.findIdx?_eq_some_of_exists h
  have hlt := List.findIdx_lt_length_of_exists h
  simp only [indexOfk, hfind]
  constructor
  · omega
  · exact_mod_cast hlt

theorem inv_applyOp_mov (key : T → String) (A B buffer : List T) (op : Op T)
    (htype : op.type = OpType.MOV)
    (hge : -1 ≤ op.index) (hlt : op.index < (buffer.length : Int))
    (hpos : 0 < buffer.length)
    (hinc : includesk key B op.item = true)
    (horig : op.item ∈ A ∨ op.item ∈ B)
    (hinv : InvBuf key A B buffer) : InvBuf key A B (applyOp buffer op) := by
  obtain ⟨hlen, hkeys, hmem⟩ := hinv
  have hremlt : jsStart op.index buffer.length < buffer.length :=
    jsStart_lt _ _ hge hlt hpos
  refine ⟨?_, ?_, ?_⟩
  · simp only [applyOp, htype]
    rw [spliceInsert_length, spliceRemove1_length_of_lt _ _ hremlt]
    omega
  · intro x hx
    rcases mem_applyOp _ _ _ hx with h | h
    · exact hkeys x h
    · rw [h]; exact hinc
  · intro x hx
    rcases mem_applyOp _ _ _ hx with h | h
    · exact hmem x h
    · rw [h]; exact horig

theorem inv_step (key : T → String) (A B buffer : List T) (mv : Move T)
    (hinv : InvBuf key A B buffer) (hfm : findMove key buffer B = some mv) :
    InvBuf key A B (applyOps buffer (bufferMovesFor key A B mv)) := by
  obtain ⟨hsrc, hitem, hinc, hdst⟩ := findMove_some_char key buffer B mv hfm
  have hlen := hinv.1
  have hitem_mem : mv.item ∈ buffer := by
    rw [hitem]
    exact List.getElem_mem hsrc
  have hm1 : InvBuf key A B (applyOp buffer ⟨OpType.MOV, mv.item,
      (mv.indexSrc : Int), some mv.indexDst⟩) := by
    refine inv_applyOp_mov key A B buffer _ rfl ?_ ?_ ?_ ?_ ?_ hinv
    · show (-1 : Int) ≤ ((mv.indexSrc : Nat) : Int)
      omega
    · show ((mv.indexSrc : Nat) : Int) < (buffer.length : Int)
      exact_mod_cast hsrc
    · omega
    · exact hinv.2.1 mv.item hitem_mem
    · exact hinv.2.2 mv.item hitem_mem
  have hdstspec := indexOfk_spec key B mv.item hinc
  rw [← hdst] at hdstspec
  obtain ⟨hd0, hd1⟩ := hdstspec
  unfold bufferMovesFor
  rcases hnd : B[mv.indexSrc]? with _ | nd
  · simpa [applyOps, applyOp] using hm1
  · rcases hoa : intGet? A mv.indexDst with _ | oa
    · simpa [applyOps, applyOp] using hm1
    · by_cases heq : eqk key nd oa
      · simp only [heq, if_true]
        have hndB : nd ∈ B := List.getElem?_mem hnd
        rw [show applyOps buffer [⟨OpType.MOV, mv.item, (mv.indexSrc : Int),
            some mv.indexDst⟩, ⟨OpType.MOV, nd, mv.indexDst - 1,
            some (mv.indexSrc : Int)⟩] =
          applyOp (applyOp buffer ⟨OpType.MOV, mv.item, (mv.indexSrc : Int),
            some mv.indexDst⟩) ⟨OpType.MOV, nd, mv.indexDst - 1,
            some (mv.indexSrc : Int)⟩ from rfl]
        refine inv_applyOp_mov key A B _ _ rfl ?_ ?_ ?_ ?_ ?_ hm1
        · show (-1 : Int) ≤ mv.indexDst - 1
          omega
        · show mv.indexDst - 1 < ((applyOp buffer ⟨OpType.MOV, mv.item,
            (mv.indexSrc : Int), some mv.indexDst⟩).length : Int)
          rw [hm1.1]
          omega
        · rw [hm1.1]
          omega
        · exact includesk_self key B nd hndB
        · exact Or.inr hndB
      · simpa [heq, applyOps, applyOp] using hm1

theorem buffer_eq_target (key : T → String) (A B bufferF : List T)
    (hB : (B.map key).Nodup)
    (hAB : ∀ a ∈ A, ∀ b ∈ B, key a = key b → a = b)
    (hinv : InvBuf key A B bufferF)
    (hnone : findMove key bufferF B = none) : bufferF = B := by
  obtain ⟨hlen, hkeys, hmem⟩ := hinv
  apply List.ext_getElem hlen
  intro r h1 h2
  have hinc := hkeys bufferF[r] (List.getElem_mem h1)
  have heqAt := findMove_none_char key bufferF B hnone r h1 hinc
  have hBr : B[r]? = some B[r] := List.getElem?_eq_getElem h2
  simp only [eqAt, hBr] at heqAt
  have hkeq : key bufferF[r] = key B[r] := by simpa [eqk] using heqAt
  rcases hmem bufferF[r] (List.getElem_mem h1) with hA2 | hB2
  · exact hAB _ hA2 _ (List.getElem_mem h2) hkeq
  · obtain ⟨q, hq, hqe⟩ := List.mem_iff_getElem.mp hB2
    have hq2 : q < (B.map key).length := by simpa using hq
    have hr2 : r < (B.map key).length := by simpa using h2
    have hkq : (B.map key)[q] = (B.map key)[r] := by
      rw [List.getElem_map, List.getElem_map, hqe, hkeq]
    have hqr : q = r := (hB.getElem_inj_iff).mp hkq
    subst hqr
    exact hqe.symm

theorem moveLoop_sound (key : T → String) (A B : List T) (da : Nat) :
    ∀ (n : Nat) (buffer : List T) (moves ms : List (Op T)),
      B.length - (da + moves.length) = n →
      InvBuf key A B buffer →
      moveLoop key A B da buffer moves = (ms, false) →
      ∃ suffix bufferF, ms = moves ++ suffix ∧ applyOps buffer suffix = bufferF ∧
        findMove key bufferF B = none ∧ InvBuf key A B bufferF := by
  intro n
  induction n using Nat.strong_induction_on with
  | _ n ih =>
      intro buffer moves ms hn hinv hloop
      rw [moveLoop.eq_def] at hloop
      rcases hfm : findMove key buffer B with _ | mv
      · simp only [hfm] at hloop
        have hms : moves = ms := congrArg Prod.fst hloop
        refine ⟨[], buffer, by rw [← hms, List.append_nil], rfl, hfm, hinv⟩
      · simp only [hfm] at hloop
        split at hloop
        · exact absurd (congrArg Prod.snd hloop) (by simp)
        · rename_i hguard
          have hinv' := inv_step key A B buffer mv hinv hfm
          have hmeasure : B.length -
              (da + (moves ++ bufferMovesFor key A B mv).length) < n := by
            have hpos := bufferMovesFor_length_pos key A B mv
            simp only [List.length_append] at *
            omega
          obtain ⟨suffix, bufferF, h1, h2, h3, h4⟩ :=
            ih _ hmeasure (applyOps buffer (bufferMovesFor key A B mv))
              (moves ++ bufferMovesFor key A B mv) ms rfl hinv' hloop
          refine ⟨bufferMovesFor key A B mv ++ suffix, bufferF, ?_, ?_, h3, h4⟩
          · rw [h1, List.append_assoc]
          · rw [applyOps_append, h2]

theorem diffArray_some (key : T → String) (A B : List T) :
    diffArray key (some A) B =
      if (deletions key B A).length ≥ A.length then ⟨deletions key B A, true⟩
      else
        ⟨deletions key B A ++ additions key A B ++
          (moveLoop key A B
            ((deletions key B A).length + (additions key A B).length)
            (applyOps (applyOps A (deletions key B A)) (additions key A B)) []).1,
          (moveLoop key A B
            ((deletions key B A).length + (additions key A B).length)
            (applyOps (applyOps A (deletions key B A)) (additions key A B)) []).2⟩ :=
  rfl

/-- Claim C1 amended: for keyed sequences with unique keys per sequence, and
keys that identify items across the two sequences (equal keys imply equal
items), applying the ops of a non-overkill `diffArray` result sequentially to
the old sequence yields exactly the new sequence. -/
theorem claim_C1_diff_correct (key : T → String) (A B : List T)
    (hA : (A.map key).Nodup) (hB : (B.map key).Nodup)
    (hAB : ∀ a ∈ A, ∀ b ∈ B, key a = key b → a = b)
    (hov : (diffArray key (some A) B).overkill = false) :
    applyOps A (diffArray key (some A) B).ops = B := by
  rw [diffArray_some] at hov ⊢
  by_cases hdel : (deletions key B A).length ≥ A.length
  · rw [if_pos hdel] at hov
    exact Bool.noConfusion hov
  · rw [if_neg hdel] at hov ⊢
    have hov2 : (moveLoop key A B
        ((deletions key B A).length + (additions key A B).length)
        (applyOps (applyOps A (deletions key B A)) (additions key A B)) []).2
          = false := hov
    show applyOps A (deletions key B A ++ additions key A B ++
      (moveLoop key A B ((deletions key B A).length + (additions key A B).length)
        (applyOps (applyOps A (deletions key B A)) (additions key A B)) []).1) = B
    rcases hres : moveLoop key A B
        ((deletions key B A).length + (additions key A B).length)
        (applyOps (applyOps A (deletions key B A)) (additions key A B)) []
      with ⟨ms, ovk⟩
    rw [hres] at hov2
    have hovk : ovk = false := hov2
    subst hovk
    obtain ⟨suffix, bufferF, h1, h2, h3, h4⟩ := moveLoop_sound key A B
      ((deletions key B A).length + (additions key A B).length)
      (B.length - ((deletions key B A).length + (additions key A B).length))
      (applyOps (applyOps A (deletions key B A)) (additions key A B)) [] ms
      (by simp) (inv_buffer2 key A B hA hB) hres
    have hms : ms = suffix := by simpa using h1
    show applyOps A (deletions key B A ++ additions key A B ++ ms) = B
    rw [hms, List.append_assoc, applyOps_append, applyOps_append, h2]
    exact buffer_eq_target key A B bufferF hB hAB h4 h3

/-- Counterexample to claim C1 as stated: the singleton sequences `[0]` and
`[1]` under the key function that assigns both items the key "k" have unique
keys within each sequence, `diffArray` returns an empty op list without the
overkill flag, yet applying the ops to `[0]` does not yield `[1]` — items are
compared solely by key, so equal-key items are never replaced. -/
theorem claim_C1_counterexample :
    (diffArray (fun _ : Nat => "k") (some [0]) [1]).overkill = false ∧
    applyOps [0] (diffArray (fun _ : Nat => "k") (some [0]) [1]).ops ≠ [1] := by
  have hml : moveLoop (fun _ : Nat => "k") [0] [1]
      ((deletions (fun _ : Nat => "k") [1] [0]).length +
        (additions (fun _ : Nat => "k") [0] [1]).length)
      (applyOps (applyOps [0] (deletions (fun _ : Nat => "k") [1] [0]))
        (additions (fun _ : Nat => "k") [0] [1])) [] = ([], false) := by
    rw [moveLoop.eq_def]
    have hfm : findMove (fun _ : Nat => "k")
        (applyOps (applyOps [0] (deletions (fun _ : Nat => "k") [1] [0]))
          (additions (fun _ : Nat => "k") [0] [1])) [1] = none := by
      decide
    rw [hfm]
  have hd : diffArray (fun _ : Nat => "k") (some [0]) [1] =
      ⟨([] : List (Op Nat)), false⟩ := by
    rw [diffArray_some, if_neg (by decide), hml]
    decide
  rw [hd]
  exact ⟨rfl, by decide⟩

/-- Witness for the amended C1 at a concrete run: `["a","b","c"]` to
`["a","c","d"]` (one deletion, one addition, no overkill). -/
theorem claim_C1_diff_correct_witness :
    applyOps ["a", "b", "c"]
      (diffArray (fun s => s) (some ["a", "b", "c"]) ["a", "c", "d"]).ops =
      ["a", "c", "d"] := by
  apply claim_C1_diff_correct
  · decide
  · decide
  · decide
  · have hml : moveLoop (fun s : String => s) ["a", "b", "c"] ["a", "c", "d"]
        ((deletions (fun s : String => s) ["a", "c", "d"] ["a", "b", "c"]).length +
          (additions (fun s : String => s) ["a", "b", "c"] ["a", "c", "d"]).length)
        (applyOps (applyOps ["a", "b", "c"]
            (deletions (fun s : String => s) ["a", "c", "d"] ["a", "b", "c"]))
          (additions (fun s : String => s) ["a", "b", "c"] ["a", "c", "d"])) []
        = ([], false) := by
      rw [moveLoop.eq_def]
      have hfm : findMove (fun s : String => s)
          (applyOps (applyOps ["a", "b", "c"]
              (deletions (fun s : String => s) ["a", "c", "d"] ["a", "b", "c"]))
            (additions (fun s : String => s) ["a", "b", "c"] ["a", "c", "d"]))
          ["a", "c", "d"] = none := by
        decide
      rw [hfm]
    rw [diffArray_some, if_neg (by decide), hml]

/-- Claim C6, evaluated at the failing input (taken from the repository's own
test file): old `[1,2,3,4]`, new `[3,4,5,6]` produce two deletions and two
additions — four ops, equal to the new sequence's length — yet the overkill
flag is not set, because the threshold is only checked inside the move loop
and no move is ever detected here. -/
theorem claim_C6_failing_input_eval :
    (diffArray (fun n : Nat => toString n) (some [1, 2, 3, 4]) [3, 4, 5, 6]).overkill
      = false ∧
    (diffArray (fun n : Nat => toString n) (some [1, 2, 3, 4]) [3, 4, 5, 6]).ops.length
      = 4 ∧
    ¬((diffArray (fun n : Nat => toString n) (some [1, 2, 3, 4]) [3, 4, 5, 6]).ops.length
      < ([3, 4, 5, 6] : List Nat).length) := by
  have hml : moveLoop (fun n : Nat => toString n) [1, 2, 3, 4] [3, 4, 5, 6]
      ((deletions (fun n : Nat => toString n) [3, 4, 5, 6] [1, 2, 3, 4]).length +
        (additions (fun n : Nat => toString n) [1, 2, 3, 4] [3, 4, 5, 6]).length)
      (applyOps (applyOps [1, 2, 3, 4]
          (deletions (fun n : Nat => toString n) [3, 4, 5, 6] [1, 2, 3, 4]))
        (additions (fun n : Nat => toString n) [1, 2, 3, 4] [3, 4, 5, 6])) []
      = ([], false) := by
    rw [moveLoop.eq_def]
    have hfm : findMove (fun n : Nat => toString n)
        (applyOps (applyOps [1, 2, 3, 4]
            (deletions (fun n : Nat => toString n) [3, 4, 5, 6] [1, 2, 3, 4]))
          (additions (fun n : Nat => toString n) [1, 2, 3, 4] [3, 4, 5, 6]))
        [3, 4, 5, 6] = none := by
      decide
    rw [hfm]
  have hd : diffArray (fun n : Nat => toString n) (some [1, 2, 3, 4]) [3, 4, 5, 6] =
      ⟨deletions (fun n : Nat => toString n) [3, 4, 5, 6] [1, 2, 3, 4] ++
        additions (fun n : Nat => toString n) [1, 2, 3, 4] [3, 4, 5, 6] ++ [],
        false⟩ := by
    rw [diffArray_some, if_neg (by decide), hml]
  rw [hd]
  refine ⟨rfl, by decide, by decide⟩

end DiffingClaims
